import Mathlib

/-
  Verification of the impurity-trace transactional tree core
  (src/c++/impurity_trace.hpp of Wentzell/cthyb).

  Shallow embedding notes.
  * Machine pointers become explicit node identities (`node_rec.id`); the
    ownership structure of the red-black tree is a genuine tree (children
    are owned exclusively by the parent), so the linked structure is an
    inductive `tree_t`.  A pointer write through a saved parent pointer is
    modelled as a walk that rewrites the (unique, by an id-freshness
    hypothesis) matching slot; writes through pointers to nodes that are no
    longer reachable from the root do not change the tree and are dropped.
  * Detached nodes held in the pools (`nodes_storage`) are modelled as
    `tree_t` values; aliasing between a pool slot and a glued-in trial node
    is not observable by any of the verified claims and is not modelled.
  * `double` fields that the verified claims never compute with (cache
    contents, the partition function, density-matrix entries) are modelled
    as rationals: the claims only move them around unchanged.
  * `time_pt` is an externally defined totally ordered value; it is
    modelled as `Nat`, compared with the tree's comparator
    `std::greater<time_pt>`.
  * C++ exceptions: an operation returns its result state together with an
    `Option err_t` (the object survives a throw); mutations performed
    before the throw are kept, mutations after it are not, matching stack
    unwinding.  Out-of-bounds vector accesses and null-pointer dereferences
    (undefined behaviour) are modelled by the distinguished error values
    `err_t.oob_access` / `err_t.null_deref`.
-/

set_option maxHeartbeats 1000000

namespace Cthyb

/-- Operator descriptor (`op_desc`, defined in configuration.hpp which is
outside src/; the three fields are exactly the ones impurity_trace.hpp
reads: `dagger`, `block_index`, `linear_index`). -/
structure op_desc where
  dagger : Bool
  block_index : Nat
  linear_index : Nat
deriving DecidableEq

instance : Inhabited op_desc := ⟨⟨false, 0, 0⟩⟩

/-- Per-node cache (`cache_t`, impurity_trace.hpp lines 85-92): tau gaps to
the subtrees, per-block destination table, partial-product matrices,
log-norms and per-block validity flags.  Matrices are lists of rows. -/
structure cache_t where
  dtau_l : ℚ
  dtau_r : ℚ
  block_table : List Int
  matrices : List (List (List ℚ))
  matrix_lnorms : List ℚ
  matrix_norm_valid : List Bool
deriving DecidableEq

instance : Inhabited cache_t := ⟨⟨0, 0, [], [], [], []⟩⟩

/-- One linked rb-tree node: pointer identity `id`, key (time point), the
node data (`op_desc` plus cache), the rb color bit, the subtree size `N`,
and the `modified` / `delete_flag` bits used by the transaction machinery. -/
structure node_rec where
  id : Nat
  key : Nat
  op : op_desc
  cache : cache_t
  color : Bool
  n_count : Nat
  modified : Bool
  delete_flag : Bool
deriving DecidableEq

instance : Inhabited node_rec :=
  ⟨{ id := 0, key := 0, op := default, cache := default, color := false,
     n_count := 1, modified := false, delete_flag := false }⟩

/-- The linked tree reachable from a root pointer. -/
inductive tree_t where
  | nil : tree_t
  | node : node_rec → tree_t → tree_t → tree_t
deriving DecidableEq

namespace tree_t

/-- The comparator of the tree: `std::greater<time_pt>`; `cmp_keys a b` is the
C++ `comparator(a, b)`, i.e. `a > b`. -/
def cmp_keys (a b : Nat) : Bool := decide (b < a)

/-- Key of the node a non-null pointer designates. -/
def key_of : tree_t → Nat
  | .nil => 0
  | .node r _ _ => r.key

/-- Record of the node a non-null pointer designates. -/
def root_rec : tree_t → node_rec
  | .nil => default
  | .node r _ _ => r

/-- Id of the node a non-null pointer designates. -/
def root_id : tree_t → Nat
  | .nil => 0
  | .node r _ _ => r.id

/-- All node ids, root first, left before right. -/
def tree_ids : tree_t → List Nat
  | .nil => []
  | .node r l rt => r.id :: (tree_ids l ++ tree_ids rt)

/-- In-order (infix) list of node records, the physical operator order. -/
def inorder : tree_t → List node_rec
  | .nil => []
  | .node r l rt => inorder l ++ r :: inorder rt

/-- All keys. -/
def tree_keys : tree_t → List Nat
  | .nil => []
  | .node r l rt => r.key :: (tree_keys l ++ tree_keys rt)

/-- `tree.size()`: the rb tree reads the root's maintained subtree count
`N` (0 for an empty tree); an ordinary BST splice does not update `N`. -/
def size : tree_t → Int
  | .nil => 0
  | .node r _ _ => (r.n_count : Int)

/-- The actual number of linked nodes. -/
def node_count : tree_t → Nat
  | .nil => 0
  | .node _ l rt => node_count l + node_count rt + 1

/-- `tree.clear_modified()` (external rbt.hpp): clear every node's
modified flag. -/
def clear_modified : tree_t → tree_t
  | .nil => .nil
  | .node r l rt => .node { r with modified := false } (clear_modified l) (clear_modified rt)

/-- Decidable check that no node is flagged modified. -/
def all_unmodified : tree_t → Bool
  | .nil => true
  | .node r l rt => !r.modified && all_unmodified l && all_unmodified rt

/-- A non-null detached node with no children glued on. -/
def is_leaf_node : tree_t → Bool
  | .node _ .nil .nil => true
  | _ => false

/-- Every key of the tree satisfies `p`. -/
def all_keys (p : Nat → Bool) : tree_t → Bool
  | .nil => true
  | .node r l rt => p r.key && all_keys p l && all_keys p rt

/-- Binary-search-tree ordering under the tree's comparator
(`std::greater`): keys in the left subtree compare greater than the root
key, keys in the right subtree compare smaller. -/
def is_bst : tree_t → Bool
  | .nil => true
  | .node r l rt =>
      all_keys (fun k => decide (r.key < k)) l &&
      all_keys (fun k => decide (k < r.key)) rt &&
      is_bst l && is_bst rt

end tree_t

/-- Error taxonomy: `runtime_error` is `TRIQS_RUNTIME_ERROR` (fatal usage
error), `rbt_insert_error` is the duplicate-key exception thrown by
`try_insert_impl`, `oob_access` and `null_deref` mark undefined behaviour
(out-of-bounds `std::vector` indexing, null pointer dereference). -/
inductive err_t where
  | runtime_error : err_t
  | rbt_insert_error : err_t
  | oob_access : err_t
  | null_deref : err_t
deriving DecidableEq

/-- The mutable state of one `impurity_trace` instance, restricted to the
members the verified claims observe (histograms and the h_loc accessors are
read-only diagnostics/collaborators).  `trial_index` / `backup_index` are
the `i` members of the two `nodes_storage` pools (start at -1);
`next_id` models the allocator used by `make_new_node`. -/
structure State where
  tree : tree_t
  tree_size : Int
  trial_nodes : List tree_t
  trial_index : Int
  inserted_nodes : List (Option (Nat × Bool))
  removed_node_ids : List Nat
  removed_keys : List Nat
  backup_nodes : List tree_t
  backup_index : Int
  next_id : Nat
  n_blocks : Nat
  atomic_z : ℚ
  density_matrix : List (Bool × List (List ℚ))
deriving DecidableEq

/-- The observable state named by the frame claims: tree structure (with
every per-node cache entry), the `tree_size` counter, the atomic partition
function and the density matrix. -/
def obs (s : State) : tree_t × Int × ℚ × List (Bool × List (List ℚ)) :=
  (s.tree, s.tree_size, s.atomic_z, s.density_matrix)

open tree_t

/-- Modelled from the spec: the rb-tree node `reset` (rbt.hpp, outside
src/) overwrites the key and operator descriptor of a reused node ("a
node's key/operator are overwritten (reset) rather than reallocated"); a
reused node's cache must be recomputed before the next trace evaluation, so
the node is marked modified. -/
def reset_node (n : tree_t) (tau : Nat) (op : op_desc) : tree_t :=
  match n with
  | .nil => .nil
  | .node r l rt => .node { r with key := tau, op := op, modified := true } l rt

/-- `try_insert_impl` (impurity_trace.hpp lines 197-208): ordinary BST
insertion of the detached node `n`; throws `rbt_insert_error` on a key
collision; marks every node on the descent path modified; records, for the
trial node, its would-be parent and side (the first record written on the
way back up, i.e. the deepest node, wins — C++ writes
`inserted_nodes[...]` only while it is still null). -/
def try_insert_impl : tree_t → tree_t → Except err_t (tree_t × Option (Nat × Bool))
  | .nil, n => .ok (n, none)
  | .node r l rt, n =>
    if r.key = key_of n then .error .rbt_insert_error
    else if cmp_keys (key_of n) r.key then
      match try_insert_impl l n with
      | .error e => .error e
      | .ok (l2, rec) => .ok (.node { r with modified := true } l2 rt, some (rec.getD (r.id, true)))
    else
      match try_insert_impl rt n with
      | .error e => .error e
      | .ok (rt2, rec) => .ok (.node { r with modified := true } l rt2, some (rec.getD (r.id, false)))

/-- `try_insert` (impurity_trace.hpp lines 225-233).  The capacity guard is
the literal source test `trial_nodes.index() > 3`; `take_next` is
`nodes[++i]` on the 4-element pool vector, so an index beyond the pool is
an out-of-bounds access. -/
def try_insert (tau : Nat) (op : op_desc) (s : State) : State × Option err_t :=
  if s.trial_index > 3 then (s, some .runtime_error)
  else
    let i2 : Int := s.trial_index + 1
    match s.trial_nodes.get? i2.toNat with
    | none => ({ s with trial_index := i2 }, some .oob_access)
    | some nd =>
      let s1 := { s with trial_index := i2,
                         inserted_nodes := s.inserted_nodes.set i2.toNat none }
      match try_insert_impl s1.tree (reset_node nd tau op) with
      | .error e => (s1, some e)
      | .ok (t2, rec) =>
        ({ s1 with tree := t2,
                   inserted_nodes := s1.inserted_nodes.set i2.toNat rec,
                   tree_size := s1.tree_size + 1 }, none)

/-- Net effect on the reachable tree of the pointer writes
`(r.second ? r.first->left : r.first->right) = nullptr` for every recorded
(parent, side) pair: the matching child slots are nulled; writes through
pointers to nodes that are no longer reachable do not change the tree. -/
def strip (recs : List (Option (Nat × Bool))) : tree_t → tree_t
  | .nil => .nil
  | .node r l rt =>
    .node r (if recs.contains (some (r.id, true)) then .nil else strip recs l)
            (if recs.contains (some (r.id, false)) then .nil else strip recs rt)

/-- `cancel_insert_impl` (impurity_trace.hpp lines 211-217): unlink all
glued trial nodes using the recorded parent links; if every node of the
tree is a trial node (`tree_size == trial_nodes.index() + 1`) the root
pointer itself is nulled. -/
def cancel_insert_impl (s : State) : State :=
  let t2 := strip (s.inserted_nodes.take (s.trial_index + 1).toNat) s.tree
  { s with tree := if s.tree_size = s.trial_index + 1 then .nil else t2 }

/-- The destructor body `~impurity_trace` (impurity_trace.hpp lines 51-53):
it runs exactly `cancel_insert_impl()` before the members are torn down. -/
def destructor_body (s : State) : State := cancel_insert_impl s

/-- `cancel_insert` (impurity_trace.hpp lines 236-242): unlink the trial
nodes, reset the pool index, recompute `tree_size` from the root's `N`, and
clear all modified flags (`check_cache_integrity` is a read-only debug
check and does not mutate). -/
def cancel_insert (s : State) : State :=
  let s1 := cancel_insert_impl s
  let s2 := { s1 with trial_index := -1 }
  let s3 := { s2 with tree_size := size s2.tree }
  { s3 with tree := clear_modified s3.tree }

/-- Run a list of `try_insert` calls, stopping at the first thrown
exception (in C++ the exception propagates, so later calls never happen).
The Bool is true iff every call succeeded. -/
def run_inserts : List (Nat × op_desc) → State → State × Bool
  | [], s => (s, true)
  | (tau, op) :: rest, s =>
    match try_insert tau op s with
    | (s1, none) => run_inserts rest s1
    | (s1, some _) => (s1, false)

/-! ### Node removal (impurity_trace.hpp lines 264-304) -/

/-- The predicate of `try_delete`'s search:
`no->op.dagger == dagger && no->op.block_index == block_index`. -/
def op_matches (bi : Nat) (dag : Bool) (r : node_rec) : Bool :=
  r.op.dagger == dag && r.op.block_index == bi

/-- Modelled from the spec: `find_if` over the rb tree comes from triqs
rbt.hpp, outside src/ — "an in-order walk with a matching predicate and a
target match count; this existence search is a single pass with early
termination at the match".  The stateful counter `i` of try_delete's lambda
is threaded explicitly; the lambda returns `i == n + 1` after incrementing
`i` at a matching node, and the walk stops at the first node where it
returns true (null when the walk is exhausted). -/
def find_nth_matching (bi : Nat) (dag : Bool) (target : Nat) :
    tree_t → Nat → Nat × Option node_rec
  | .nil, i => (i, none)
  | .node r l rt, i =>
    match find_nth_matching bi dag target l i with
    | (i1, some x) => (i1, some x)
    | (i1, none) =>
      let i2 := if op_matches bi dag r then i1 + 1 else i1
      if i2 = target then (i2, some r)
      else find_nth_matching bi dag target rt i2

/-- Modelled from the spec: `tree.set_modified_from_root_to(key)` (triqs
rbt.hpp, outside src/) marks "all nodes on path from node to root as
modified": it descends from the root by the comparator, marking every node
it visits, until it reaches the node with the given key. -/
def set_modified_from_root_to (k : Nat) : tree_t → tree_t
  | .nil => .nil
  | .node r l rt =>
    if k = r.key then .node { r with modified := true } l rt
    else if cmp_keys k r.key then
      .node { r with modified := true } (set_modified_from_root_to k l) rt
    else
      .node { r with modified := true } l (set_modified_from_root_to k rt)

/-- The pointer write `x->delete_flag = true`, with `x` designated by its
node identity. -/
def set_delete_flag (idv : Nat) : tree_t → tree_t
  | .nil => .nil
  | .node r l rt =>
    .node (if r.id = idv then { r with delete_flag := true } else r)
      (set_delete_flag idv l) (set_delete_flag idv rt)

/-- `try_delete` (impurity_trace.hpp lines 270-283), declared `noexcept`:
find the (n+1)-th operator matching the dagger/block filters, store the
node and its key, mark the root-to-node path modified, set the node's
delete flag and decrement `tree_size`.  When the search finds no node,
`find_if` returns null and the code dereferences it (`x->key`): there is no
error branch in the source, so the model surfaces the undefined behaviour
as `err_t.null_deref`. -/
def try_delete (nth bi : Nat) (dag : Bool) (s : State) : Except err_t (State × Nat) :=
  match (find_nth_matching bi dag (nth + 1) s.tree 0).2 with
  | none => .error .null_deref
  | some x =>
    .ok ({ s with removed_node_ids := s.removed_node_ids ++ [x.id],
                  removed_keys := s.removed_keys ++ [x.key],
                  tree := set_delete_flag x.id (set_modified_from_root_to x.key s.tree),
                  tree_size := s.tree_size - 1 }, x.key)

/-! ### Node replacement (impurity_trace.hpp lines 357-420) -/

/-- `make_new_node` of `nodes_storage` (impurity_trace.hpp lines 157-159):
`new node_t(time_pt{}, node_data_t{{}, n_blocks}, false, 1)` — a fresh
black detached node with default key and operator and a cache sized to
`n_blocks`; `idv` is the fresh address handed out by the allocator. -/
def make_new_node (nb idv : Nat) : tree_t :=
  .node { id := idv, key := 0, op := default,
          cache := { dtau_l := 0, dtau_r := 0,
                     block_table := List.replicate nb 0,
                     matrices := List.replicate nb [],
                     matrix_lnorms := List.replicate nb 0,
                     matrix_norm_valid := List.replicate nb false },
          color := false, n_count := 1, modified := false, delete_flag := false } .nil .nil

/-- `nodes_storage::reserve` (impurity_trace.hpp lines 168-171): grow the
backup pool to `sz` slots by allocating fresh detached nodes; never shrinks
and never touches existing slots. -/
def reserve_backup (s : State) (sz : Int) : State :=
  if sz > (s.backup_nodes.length : Int) then
    let k := (sz - (s.backup_nodes.length : Int)).toNat
    { s with backup_nodes :=
               s.backup_nodes ++ (List.range k).map (fun j => make_new_node s.n_blocks (s.next_id + j)),
             next_id := s.next_id + k }
  else s

/-- The substituted descriptor for one operator: `substitute_c` /
`substitute_c_dag` indexed by the flavour (`linear_index`). -/
def sub_for (sc scd : List op_desc) (o : op_desc) : op_desc :=
  (if o.dagger then scd else sc).getD o.linear_index default

/-- `try_replace_impl` (impurity_trace.hpp lines 361-387): post-order
rebuild; a node is copied into the backup pool (swap_next, i.e. the pool
slot receives the original node and hands out its previous detached
occupant) exactly when its own descriptor changed (compared by
`linear_index`) or one of its children was copied; the copy keeps key,
color and `N`, takes the new descriptor when it changed, relinks the new
children and is marked modified.  The pool index `j` is the number of used
slots (C++ `i` is `j - 1`). -/
def try_replace_impl (sc scd : List op_desc) :
    tree_t → List tree_t → Nat → tree_t × List tree_t × Nat
  | .nil, pool, j => (.nil, pool, j)
  | .node r l rt, pool, j =>
    let pl := try_replace_impl sc scd l pool j
    let pr := try_replace_impl sc scd rt pl.2.1 pl.2.2
    let new_op := sub_for sc scd r.op
    let op_changed := new_op.linear_index ≠ r.op.linear_index
    if op_changed ∨ pl.1 ≠ l ∨ pr.1 ≠ rt then
      let slot := pr.2.1.getD pr.2.2 tree_t.nil
      let pool3 := pr.2.1.set pr.2.2 (.node r l rt)
      let nrec := root_rec slot
      let nrec2 := if op_changed then { nrec with key := r.key, op := new_op }
                   else { nrec with key := r.key, op := r.op }
      (.node { nrec2 with color := r.color, n_count := r.n_count, modified := true }
         pl.1 pr.1, pool3, pr.2.2 + 1)
    else (.node r l rt, pr.2.1, pr.2.2)

/-- `try_replace` (impurity_trace.hpp lines 398-406): no-op on an empty
configuration; raises the fatal usage error when the backup pool index is
not reset; otherwise sizes the backup pool to `tree.size()` and rebuilds
from the root. -/
def try_replace (sc scd : List op_desc) (s : State) : State × Option err_t :=
  if s.tree_size = 0 then (s, none)
  else if ¬ s.backup_index = -1 then (s, some .runtime_error)
  else
    let s1 := reserve_backup s (size s.tree)
    let p := try_replace_impl sc scd s1.tree s1.backup_nodes 0
    ({ s1 with tree := p.1, backup_nodes := p.2.1, backup_index := (p.2.2 : Int) - 1 }, none)

/-! ### Cache engine and evaluator (impurity_trace.cpp, outside src/) -/

/-- Modelled from the spec: `update_cache` (implemented in
impurity_trace.cpp, outside src/) "recomputes, bottom-up, the cache entries
of every node reachable from a modified marker"; "a node whose modified
flag is clear and whose requested block's validity flag is set must be
skipped entirely (memoization)".  The per-node recomputation itself is
abstracted by the parameter `recompute`; the claims proved below hold for
every recomputation function.  Once processed, a node's modified flag is
cleared. -/
def update_cache_spec (recompute : tree_t → cache_t) : tree_t → tree_t
  | .nil => .nil
  | .node r l rt =>
    if r.modified then
      .node { r with cache := recompute (.node r l rt), modified := false }
        (update_cache_spec recompute l) (update_cache_spec recompute rt)
    else .node r l rt

/-- `confirm_replace` (impurity_trace.hpp lines 408-413): reset the backup
pool index, recompute the modified caches, clear the modified flags
(`check_cache_integrity` is a read-only debug check). -/
def confirm_replace (recompute : tree_t → cache_t) (s : State) : State :=
  let s1 := { s with backup_index := -1 }
  let s2 := { s1 with tree := update_cache_spec recompute s1.tree }
  { s2 with tree := clear_modified s2.tree }

/-- Squared Frobenius norm of the unnormalized density-matrix block
collection: the sum over blocks of the sums of squared entries. -/
def frob_norm_sq (blocks : List (List (List ℚ))) : ℚ :=
  (blocks.map (fun m => (m.map (fun row => (row.map (fun e => e * e)).sum)).sum)).sum

/-- Frobenius norm of the density-matrix block collection. -/
noncomputable def frobenius_norm (blocks : List (List (List ℚ))) : ℝ :=
  Real.sqrt ((frob_norm_sq blocks : ℚ) : ℝ)

/-- Modelled from the spec: `compute(p_yee, u_yee)` is implemented in
impurity_trace.cpp, outside src/.  Per spec section 4.4 it "returns a pair:
the nonnegative sampling weight (either the Frobenius norm of the
unnormalized density matrix or the absolute trace, selected by a persistent
boolean configuration flag) and the signed scalar trace itself".  The
evaluator's walk over the root cache produces the unnormalized
density-matrix blocks and the signed trace; they appear here as the inputs
`blocks` and `tr`, and `compute` forms the returned pair from them. -/
noncomputable def compute (use_norm_as_weight : Bool)
    (blocks : List (List (List ℚ))) (tr : ℚ) : ℝ × ℚ :=
  (if use_norm_as_weight then frobenius_norm blocks else |(tr : ℝ)|, tr)

/-! ### Concrete sample states (used by witnesses and counterexamples) -/

/-- A sample annihilation operator on flavour 0 of block 0. -/
def op0 : op_desc := ⟨false, 0, 0⟩

/-- An empty cache. -/
def cache0 : cache_t := ⟨0, 0, [], [], [], []⟩

/-- A black node record with a unit subtree count and clear flags. -/
def rec_at (idv k : Nat) : node_rec :=
  { id := idv, key := k, op := op0, cache := cache0, color := false,
    n_count := 1, modified := false, delete_flag := false }

/-- A clean 4-slot trial pool with fresh ids 10..13. -/
def pool4 : List tree_t :=
  [tree_t.node (rec_at 10 0) .nil .nil, tree_t.node (rec_at 11 0) .nil .nil,
   tree_t.node (rec_at 12 0) .nil .nil, tree_t.node (rec_at 13 0) .nil .nil]

/-- A quiescent instance holding one persistent operator at time 5. -/
def s_base : State :=
  { tree := .node { rec_at 0 5 with n_count := 1 } .nil .nil,
    tree_size := 1, trial_nodes := pool4, trial_index := -1,
    inserted_nodes := [none, none, none, none],
    removed_node_ids := [], removed_keys := [],
    backup_nodes := [], backup_index := -1,
    next_id := 100, n_blocks := 1, atomic_z := 1,
    density_matrix := [(false, [[0]])] }

/-! ### Lemmas: the search of try_delete -/

/-- When fewer matches remain than the target requires, the in-order walk
exhausts the subtree: the counter advances by the number of matches and no
node is returned. -/
lemma find_nth_matching_none (bi : Nat) (dag : Bool) (target : Nat) (t : tree_t) (i : Nat)
    (h : i + ((inorder t).filter (op_matches bi dag)).length < target) :
    find_nth_matching bi dag target t i
      = (i + ((inorder t).filter (op_matches bi dag)).length, none) := by
  induction t generalizing i with
  | nil => simp [find_nth_matching, inorder]
  | node r l rt ihl ihr =>
    simp only [inorder, List.filter_append, List.filter_cons, List.length_append] at h ⊢
    rcases hm : op_matches bi dag r with _ | _ <;> rw [hm] at h <;>
        simp only [Bool.false_eq_true, if_false, if_true, List.length_cons] at h ⊢ <;>
        rw [find_nth_matching, ihl i (by omega)] <;>
        simp only [hm, Bool.false_eq_true, if_false, if_true] <;>
        rw [if_neg (by omega), ihr _ (by omega)] <;>
        exact Prod.ext (by omega) rfl

/-- When at least `target - i` matches remain, the walk stops exactly at
the match that brings the counter to `target`, which is the element of the
filtered in-order sequence at position `target - 1 - i`. -/
lemma find_nth_matching_found (bi : Nat) (dag : Bool) (target : Nat) (t : tree_t) (i : Nat)
    (hi : i < target)
    (h : target ≤ i + ((inorder t).filter (op_matches bi dag)).length) :
    find_nth_matching bi dag target t i
      = (target, ((inorder t).filter (op_matches bi dag))[target - 1 - i]?) := by
  induction t generalizing i with
  | nil =>
    simp only [inorder, List.filter_nil, List.length_nil] at h
    omega
  | node r l rt ihl ihr =>
    rw [find_nth_matching]
    simp only [inorder, List.filter_append, List.filter_cons] at h ⊢
    rcases hm : op_matches bi dag r with _ | _ <;>
      simp only [hm, Bool.false_eq_true, if_false, if_true, List.length_append,
        List.length_cons] at h ⊢
    · -- root does not match
      by_cases hl : target ≤ i + ((inorder l).filter (op_matches bi dag)).length
      · have hlt : target - 1 - i < ((inorder l).filter (op_matches bi dag)).length := by omega
        rw [ihl i hi hl, List.getElem?_eq_getElem hlt]
        dsimp only
        rw [List.getElem?_append, if_pos hlt, List.getElem?_eq_getElem hlt]
      · push_neg at hl
        rw [find_nth_matching_none bi dag target l i hl]
        dsimp only
        rw [if_neg (by omega), ihr _ (by omega) (by omega),
          List.getElem?_append, if_neg (by omega)]
        congr 2
        omega
    · -- root matches
      by_cases hl : target ≤ i + ((inorder l).filter (op_matches bi dag)).length
      · have hlt : target - 1 - i < ((inorder l).filter (op_matches bi dag)).length := by omega
        rw [ihl i hi hl, List.getElem?_eq_getElem hlt]
        dsimp only
        rw [List.getElem?_append, if_pos hlt, List.getElem?_eq_getElem hlt]
      · push_neg at hl
        rw [find_nth_matching_none bi dag target l i hl]
        dsimp only
        by_cases he : i + ((inorder l).filter (op_matches bi dag)).length + 1 = target
        · rw [if_pos he, List.getElem?_append, if_neg (by omega),
            show target - 1 - i - ((inorder l).filter (op_matches bi dag)).length = 0 by omega]
          rw [List.getElem?_cons_zero, ← he]
        · rw [if_neg he, ihr _ (by omega) (by omega),
            List.getElem?_append, if_neg (by omega),
            show target - 1 - i - ((inorder l).filter (op_matches bi dag)).length
              = (target - 1 - (i + ((inorder l).filter (op_matches bi dag)).length + 1)) + 1
              from by omega,
            List.getElem?_cons_succ]

/-! ### Claim C10 -/

/-- C10: `try_delete` is noexcept yet has the unchecked precondition that
the tree holds at least n+1 operators matching the dagger/block filters;
with fewer matches the `find_if` search is exhausted, returns null, and the
code dereferences it (`x->key`, `x->delete_flag`) — there is no error
branch.  In the model the dereference of the null result surfaces as
`err_t.null_deref`. -/
theorem c10_try_delete_null_deref (nth bi : Nat) (dag : Bool) (s : State)
    (h : ((inorder s.tree).filter (op_matches bi dag)).length < nth + 1) :
    try_delete nth bi dag s = .error err_t.null_deref := by
  unfold try_delete
  rw [find_nth_matching_none bi dag (nth + 1) s.tree 0 (by omega)]

/-- Witness for C10 on a concrete state: the sample tree holds no creation
operator, so deleting the first one dereferences null. -/
theorem c10_try_delete_null_deref_witness :
    try_delete 0 0 true s_base = .error err_t.null_deref :=
  c10_try_delete_null_deref 0 0 true s_base (by decide)

/-! ### Claim C2 -/

/-- C2: `compute()` returns a pair (weight, trace); with the
use-norm-as-weight flag set the weight is the (nonnegative) Frobenius norm
of the unnormalized density-matrix blocks it produces, with the flag unset
the weight is the absolute value of the returned signed trace. -/
theorem c2_compute_weight (flag : Bool) (blocks : List (List (List ℚ))) (tr : ℚ) :
    (flag = true →
      (compute flag blocks tr).1 = frobenius_norm blocks ∧ 0 ≤ (compute flag blocks tr).1)
    ∧ (flag = false → (compute flag blocks tr).1 = |(tr : ℝ)|)
    ∧ (compute flag blocks tr).2 = tr := by
  refine ⟨fun h => ?_, fun h => ?_, rfl⟩
  · subst h
    exact ⟨rfl, Real.sqrt_nonneg _⟩
  · subst h
    rfl

/-- Witness for C2 at a concrete one-block density matrix. -/
theorem c2_compute_weight_witness :
    ((compute true [[[3, 4]]] 7).1 = frobenius_norm [[[3, 4]]]
      ∧ 0 ≤ (compute true [[[3, 4]]] 7).1)
    ∧ (compute false [[[3, 4]]] 7).1 = |((7 : ℚ) : ℝ)| :=
  ⟨(c2_compute_weight true [[[3, 4]]] 7).1 rfl,
   (c2_compute_weight false [[[3, 4]]] 7).2.1 rfl⟩

/-! ### Claim C3 -/

/-- C3 (code bug): with four pending trial insertions the pool index is 3,
so the guard `trial_nodes.index() > 3` of try_insert is `3 > 3 = false`
and does NOT fire; the call goes on to `take_next()`, which evaluates
`nodes[++i] = nodes[4]` on the 4-element pool vector — an out-of-bounds
access (undefined behaviour), not the designated usage error
`TRIQS_RUNTIME_ERROR "more than 4 insertions"` the claim (and the error
message itself, and the comment "Max 4 to allow for double insertions")
intend for the fifth concurrent trial insertion. -/
theorem c3_fifth_insert_oob (s : State) (tau : Nat) (op : op_desc)
    (hidx : s.trial_index = 3) (hlen : s.trial_nodes.length = 4) :
    (try_insert tau op s).2 = some err_t.oob_access
    ∧ (try_insert tau op s).2 ≠ some err_t.runtime_error := by
  have hget : s.trial_nodes.get? (s.trial_index + 1).toNat = none := by
    rw [hidx]
    exact List.get?_eq_none.mpr (by rw [hlen]; norm_num)
  unfold try_insert
  rw [if_neg (by rw [hidx]; norm_num)]
  dsimp only
  rw [hget]
  exact ⟨rfl, by simp⟩

/-- Witness for C3: drive the sample state through four successful trial
insertions, then make the fifth call. -/
theorem c3_fifth_insert_oob_witness :
    (try_insert 8 op0 (run_inserts [(7, op0), (3, op0), (9, op0), (4, op0)] s_base).1).2
      = some err_t.oob_access
    ∧ (try_insert 8 op0 (run_inserts [(7, op0), (3, op0), (9, op0), (4, op0)] s_base).1).2
      ≠ some err_t.runtime_error :=
  c3_fifth_insert_oob _ 8 op0 (by decide) (by decide)

/-! ### Claim C5 -/

/-- C5 counterexample: `try_replace` detects a pending replace transaction
only through the backup pool index, which is advanced just when some node
is actually copied.  A `try_replace` with identity tables on a nonempty
tree is a pending transaction in the claim's sense (no confirm/cancel has
been called), yet it copies nothing, so the very next `try_replace` call
raises no error at all — the claim's universally quantified error is not
raised at this concrete input. -/
theorem c5_counterexample :
    (try_replace [op0] [op0] s_base).2 = none
    ∧ (try_replace [op0] [op0] (try_replace [op0] [op0] s_base).1).2 = none := by
  constructor <;> decide

/-- C5 (amended): calling `try_replace` on a configuration with
`tree_size ≠ 0` while the backup pool index is not reset (i.e. a previous
replace transaction actually copied at least one node and has been neither
confirmed nor cancelled) raises the fatal usage error
`TRIQS_RUNTIME_ERROR "improper use of try_replace()"`, leaving the state
unchanged.  (With `tree_size == 0` the call returns before the check.) -/
theorem c5_replace_guard (sc scd : List op_desc) (s : State)
    (h0 : ¬ s.tree_size = 0) (hp : ¬ s.backup_index = -1) :
    try_replace sc scd s = (s, some err_t.runtime_error) := by
  unfold try_replace
  rw [if_neg h0, if_pos hp]

/-- Witness for C5 on a concrete state whose backup index is mid-
transaction. -/
theorem c5_replace_guard_witness :
    try_replace [] [] { s_base with backup_index := 0 }
      = ({ s_base with backup_index := 0 }, some err_t.runtime_error) :=
  c5_replace_guard [] [] _ (by decide) (by decide)

/-! ### Claim C4 -/

/-- If every key of `t` satisfies `p` then any member of `tree_keys t`
does. -/
lemma all_keys_mem (p : Nat → Bool) (t : tree_t) (hp : all_keys p t = true)
    (k : Nat) (hk : k ∈ tree_keys t) : p k = true := by
  induction t with
  | nil => simp [tree_keys] at hk
  | node r l rt ihl ihr =>
    simp only [all_keys, Bool.and_eq_true] at hp
    simp only [tree_keys, List.mem_cons, List.mem_append] at hk
    rcases hk with h | h | h
    · exact h ▸ hp.1.1
    · exact ihl hp.1.2 h
    · exact ihr hp.2 h

/-- In a BST-ordered tree, the descent of `try_insert_impl` towards a key
that is already present necessarily reaches the node holding it, so the
duplicate-key exception is thrown. -/
lemma try_insert_impl_duplicate (t n : tree_t) (hb : is_bst t = true)
    (hk : key_of n ∈ tree_keys t) :
    try_insert_impl t n = .error err_t.rbt_insert_error := by
  induction t with
  | nil => simp [tree_keys] at hk
  | node r l rt ihl ihr =>
    simp only [is_bst, Bool.and_eq_true] at hb
    rw [try_insert_impl]
    by_cases he : r.key = key_of n
    · rw [if_pos he]
    · rw [if_neg he]
      simp only [tree_keys, List.mem_cons, List.mem_append] at hk
      rcases hk with h | h | h
      · exact absurd h.symm he
      · have hgt : r.key < key_of n := by
          simpa using all_keys_mem _ l hb.1.1.1 _ h
        rw [if_pos (by simpa [cmp_keys] using hgt), ihl hb.1.2 h]
      · have hlt : key_of n < r.key := by
          simpa using all_keys_mem _ rt hb.1.1.2 _ h
        rw [if_neg (by simp [cmp_keys]; omega), ihr hb.2 h]

/-- C4: proposing an operator at a time point already used as a key by a
node linked in the (BST-ordered) tree — persistent or pending trial, both
lie on the search path — makes `try_insert` raise the fatal duplicate-key
error `rbt_insert_error` instead of inserting: the tree and `tree_size`
are untouched (the throw happens before any link is rewritten).  The state
must have a free pool slot, otherwise the capacity path is taken first. -/
theorem c4_duplicate_time_error (s : State) (tau : Nat) (op : op_desc)
    (hb : is_bst s.tree = true) (hk : tau ∈ tree_keys s.tree)
    (hidx1 : -1 ≤ s.trial_index) (hidx2 : s.trial_index < 3)
    (hlen : s.trial_nodes.length = 4)
    (hpool : ∀ e ∈ s.trial_nodes, is_leaf_node e = true) :
    (try_insert tau op s).2 = some err_t.rbt_insert_error
    ∧ (try_insert tau op s).1.tree = s.tree
    ∧ (try_insert tau op s).1.tree_size = s.tree_size := by
  unfold try_insert
  rw [if_neg (by omega)]
  dsimp only
  have hlt : (s.trial_index + 1).toNat < s.trial_nodes.length := by
    rw [hlen]; omega
  rw [List.get?_eq_get hlt]
  have hmem : s.trial_nodes.get ⟨_, hlt⟩ ∈ s.trial_nodes := List.get_mem _ _ hlt
  have hleaf := hpool _ hmem
  dsimp only
  have hkey : key_of (reset_node (s.trial_nodes.get ⟨_, hlt⟩) tau op) = tau := by
    rcases hnd : s.trial_nodes.get ⟨_, hlt⟩ with _ | ⟨r, l, rt⟩
    · rw [hnd] at hleaf; simp [is_leaf_node] at hleaf
    · rfl
  rw [try_insert_impl_duplicate _ _ hb (by rw [hkey]; exact hk)]
  exact ⟨rfl, rfl, rfl⟩

/-- Witness for C4: re-proposing time 5, which the sample tree already
holds. -/
theorem c4_duplicate_time_error_witness :
    (try_insert 5 op0 s_base).2 = some err_t.rbt_insert_error
    ∧ (try_insert 5 op0 s_base).1.tree = s_base.tree
    ∧ (try_insert 5 op0 s_base).1.tree_size = s_base.tree_size :=
  c4_duplicate_time_error s_base 5 op0 (by decide) (by decide) (by decide)
    (by decide) (by decide) (by decide)

/-! ### Claim C7 -/

/-- The records visited by the comparator descent from the root towards
key `k`; with BST ordering this is the root-to-node path, and it is
exactly the set of nodes `set_modified_from_root_to k` marks. -/
def path_recs (k : Nat) : tree_t → List node_rec
  | .nil => []
  | .node r l rt =>
    if k = r.key then [r]
    else if cmp_keys k r.key then r :: path_recs k l
    else r :: path_recs k rt

/-- Mapping a function that fixes every element is the identity. -/
lemma map_self {α : Type} (f : α → α) (l : List α) (h : ∀ x ∈ l, f x = x) :
    l.map f = l := by
  induction l with
  | nil => rfl
  | cons a l ih => rw [List.map_cons, h a (by simp), ih (fun x hx => h x (by simp [hx]))]

/-- A record of the in-order sequence carries an id of the tree. -/
lemma inorder_id_mem (t : tree_t) (x : node_rec) (hx : x ∈ inorder t) :
    x.id ∈ tree_ids t := by
  induction t with
  | nil => simp [inorder] at hx
  | node r l rt ihl ihr =>
    simp only [inorder, List.mem_append, List.mem_cons] at hx
    simp only [tree_ids, List.mem_cons, List.mem_append]
    rcases hx with h | h | h
    · exact Or.inr (Or.inl (ihl h))
    · exact Or.inl (congrArg node_rec.id h)
    · exact Or.inr (Or.inr (ihr h))

/-- A record of the in-order sequence carries a key of the tree. -/
lemma inorder_key_mem (t : tree_t) (x : node_rec) (hx : x ∈ inorder t) :
    x.key ∈ tree_keys t := by
  induction t with
  | nil => simp [inorder] at hx
  | node r l rt ihl ihr =>
    simp only [inorder, List.mem_append, List.mem_cons] at hx
    simp only [tree_keys, List.mem_cons, List.mem_append]
    rcases hx with h | h | h
    · exact Or.inr (Or.inl (ihl h))
    · exact Or.inl (congrArg node_rec.key h)
    · exact Or.inr (Or.inr (ihr h))

/-- Every id on the descent path is an id of the tree. -/
lemma path_recs_id_subset (k : Nat) (t : tree_t) :
    ∀ r ∈ path_recs k t, r.id ∈ tree_ids t := by
  induction t with
  | nil => simp [path_recs]
  | node r l rt ihl ihr =>
    intro q hq
    rw [path_recs] at hq
    simp only [tree_ids, List.mem_cons, List.mem_append]
    split at hq
    · simp only [List.mem_singleton] at hq
      exact Or.inl (congrArg node_rec.id hq)
    · split at hq <;> rcases List.mem_cons.mp hq with h | h
      · exact Or.inl (congrArg node_rec.id h)
      · exact Or.inr (Or.inl (ihl q h))
      · exact Or.inl (congrArg node_rec.id h)
      · exact Or.inr (Or.inr (ihr q h))

/-- `set_modified_from_root_to` acts on the in-order sequence as the map
that switches on the modified flag exactly on the descent path (ids are
assumed unique, as they are for genuinely linked heap nodes). -/
lemma inorder_set_modified_from_root_to (k : Nat) (t : tree_t)
    (hnd : (tree_ids t).Nodup) :
    inorder (set_modified_from_root_to k t)
      = (inorder t).map (fun r =>
          if ((path_recs k t).map (fun q => q.id)).contains r.id
          then { r with modified := true } else r) := by
  induction t with
  | nil => simp [set_modified_from_root_to, inorder]
  | node r l rt ihl ihr =>
    simp only [tree_ids, List.nodup_cons, List.nodup_append, List.mem_append] at hnd
    obtain ⟨hrnotin, hndl, hndrt, hdisj⟩ := hnd
    rw [set_modified_from_root_to, path_recs]
    by_cases h1 : k = r.key
    · rw [if_pos h1, if_pos h1]
      simp only [inorder, List.map_append, List.map_cons, List.map_nil]
      have hl : ∀ x ∈ inorder l,
          (if ([r.id] : List Nat).contains x.id then { x with modified := true } else x)
            = x := by
        intro x hx
        have hbeq : (x.id == r.id) = false := beq_eq_false_iff_ne.mpr
          (fun he => hrnotin (Or.inl (he ▸ inorder_id_mem l x hx)))
        rw [List.contains_cons, hbeq]
        rfl
      have hrt : ∀ x ∈ inorder rt,
          (if ([r.id] : List Nat).contains x.id then { x with modified := true } else x)
            = x := by
        intro x hx
        have hbeq : (x.id == r.id) = false := beq_eq_false_iff_ne.mpr
          (fun he => hrnotin (Or.inr (he ▸ inorder_id_mem rt x hx)))
        rw [List.contains_cons, hbeq]
        rfl
      rw [map_self _ _ hl, map_self _ _ hrt, if_pos (by simp)]
    · rw [if_neg h1, if_neg h1]
      by_cases h2 : cmp_keys k r.key
      · rw [if_pos h2, if_pos h2]
        simp only [inorder, List.map_append, List.map_cons]
        have hsub := path_recs_id_subset k l
        have hmapl : ∀ x ∈ inorder l,
            (if (r.id :: (path_recs k l).map (fun q => q.id)).contains x.id
             then { x with modified := true } else x)
            = (if ((path_recs k l).map (fun q => q.id)).contains x.id
               then { x with modified := true } else x) := by
          intro x hx
          have hbeq : (x.id == r.id) = false := beq_eq_false_iff_ne.mpr
            (fun he => hrnotin (Or.inl (he ▸ inorder_id_mem l x hx)))
          rw [List.contains_cons, hbeq, Bool.false_or]
        have hmaprt : ∀ x ∈ inorder rt,
            (if (r.id :: (path_recs k l).map (fun q => q.id)).contains x.id
             then { x with modified := true } else x) = x := by
          intro x hx
          have hbeq : (x.id == r.id) = false := beq_eq_false_iff_ne.mpr
            (fun he => hrnotin (Or.inr (he ▸ inorder_id_mem rt x hx)))
          rw [if_neg]
          rw [List.contains_cons, hbeq, Bool.false_or]
          intro hc
          obtain ⟨q, hq, he⟩ := List.mem_map.mp (List.elem_iff.mp hc)
          exact hdisj (he ▸ hsub q hq) (inorder_id_mem rt x hx)
        rw [List.map_congr_left hmapl, ihl hndl, map_self _ _ hmaprt,
          if_pos (by simp [List.elem_iff])]
      · rw [if_neg h2, if_neg h2]
        simp only [inorder, List.map_append, List.map_cons]
        have hsub := path_recs_id_subset k rt
        have hmaprt : ∀ x ∈ inorder rt,
            (if (r.id :: (path_recs k rt).map (fun q => q.id)).contains x.id
             then { x with modified := true } else x)
            = (if ((path_recs k rt).map (fun q => q.id)).contains x.id
               then { x with modified := true } else x) := by
          intro x hx
          have hbeq : (x.id == r.id) = false := beq_eq_false_iff_ne.mpr
            (fun he => hrnotin (Or.inr (he ▸ inorder_id_mem rt x hx)))
          rw [List.contains_cons, hbeq, Bool.false_or]
        have hmapl : ∀ x ∈ inorder l,
            (if (r.id :: (path_recs k rt).map (fun q => q.id)).contains x.id
             then { x with modified := true } else x) = x := by
          intro x hx
          have hbeq : (x.id == r.id) = false := beq_eq_false_iff_ne.mpr
            (fun he => hrnotin (Or.inl (he ▸ inorder_id_mem l x hx)))
          rw [if_neg]
          rw [List.contains_cons, hbeq, Bool.false_or]
          intro hc
          obtain ⟨q, hq, he⟩ := List.mem_map.mp (List.elem_iff.mp hc)
          exact hdisj (inorder_id_mem l x hx) (he ▸ hsub q hq)
        rw [List.map_congr_left hmaprt, ihr hndrt, map_self _ _ hmapl,
          if_pos (by simp [List.elem_iff])]

/-- `set_delete_flag` acts on the in-order sequence as a pointwise map. -/
lemma inorder_set_delete_flag (idv : Nat) (t : tree_t) :
    inorder (set_delete_flag idv t)
      = (inorder t).map (fun r =>
          if r.id = idv then { r with delete_flag := true } else r) := by
  induction t with
  | nil => simp [set_delete_flag, inorder]
  | node r l rt ihl ihr =>
    simp [set_delete_flag, inorder, ihl, ihr]

/-- In a BST-ordered tree the descent path towards the key of a linked
record ends at that record. -/
lemma path_recs_getLast (t : tree_t) (x : node_rec) (hb : is_bst t = true)
    (hx : x ∈ inorder t) : (path_recs x.key t).getLast? = some x := by
  induction t with
  | nil => simp [inorder] at hx
  | node r l rt ihl ihr =>
    simp only [is_bst, Bool.and_eq_true] at hb
    simp only [inorder, List.mem_append, List.mem_cons] at hx
    rw [path_recs]
    by_cases h1 : x.key = r.key
    · rw [if_pos h1]
      have hxr : x = r := by
        rcases hx with h | h | h
        · have := all_keys_mem _ l hb.1.1.1 _ (inorder_key_mem l x h)
          simp only [decide_eq_true_eq] at this
          omega
        · exact h
        · have := all_keys_mem _ rt hb.1.1.2 _ (inorder_key_mem rt x h)
          simp only [decide_eq_true_eq] at this
          omega
      rw [hxr]
      rfl
    · rw [if_neg h1]
      rcases hx with h | h | h
      · have hgt := all_keys_mem _ l hb.1.1.1 _ (inorder_key_mem l x h)
        simp only [decide_eq_true_eq] at hgt
        rw [if_pos (by simpa [cmp_keys] using hgt)]
        have hih := ihl hb.1.2 h
        have hne : path_recs x.key l ≠ [] := by
          intro hnil
          rw [hnil] at hih
          simp at hih
        rw [← hih]
        cases hpl : path_recs x.key l with
        | nil => exact absurd hpl hne
        | cons b q => exact List.getLast?_cons_cons
      · exact absurd h.symm (fun he => h1 (congrArg node_rec.key he.symm))
      · have hlt := all_keys_mem _ rt hb.1.1.2 _ (inorder_key_mem rt x h)
        simp only [decide_eq_true_eq] at hlt
        rw [if_neg (by simp [cmp_keys]; omega)]
        have hih := ihr hb.2 h
        have hne : path_recs x.key rt ≠ [] := by
          intro hnil
          rw [hnil] at hih
          simp at hih
        rw [← hih]
        cases hpl : path_recs x.key rt with
        | nil => exact absurd hpl hne
        | cons b q => exact List.getLast?_cons_cons

/-- C7: with at least n+1 matching operators linked, `try_delete(n, b, dag)`
finds the (n+1)-th match of the in-order walk in a single early-terminating
pass and returns its time point; it unlinks nothing (the in-order sequence
keeps exactly the same records, only flags change): the found node's delete
flag is set, the modified flag is switched on exactly along the descent
path — which, by BST ordering, runs from the root to the found node (its
last record is the match) — and `tree_size` drops by one. -/
theorem c7_try_delete_marks (s : State) (nth bi : Nat) (dag : Bool)
    (hb : is_bst s.tree = true) (hnd : (tree_ids s.tree).Nodup)
    (hcount : nth < ((inorder s.tree).filter (op_matches bi dag)).length) :
    ∃ s2 x,
      try_delete nth bi dag s = .ok (s2, x.key)
      ∧ ((inorder s.tree).filter (op_matches bi dag))[nth]? = some x
      ∧ inorder s2.tree = (inorder s.tree).map (fun r =>
          { r with
            modified := if ((path_recs x.key s.tree).map (fun q => q.id)).contains r.id
                        then true else r.modified,
            delete_flag := if r.id = x.id then true else r.delete_flag })
      ∧ (path_recs x.key s.tree).getLast? = some x
      ∧ s2.tree_size = s.tree_size - 1
      ∧ s2.removed_keys = s.removed_keys ++ [x.key]
      ∧ s2.removed_node_ids = s.removed_node_ids ++ [x.id] := by
  have hfound := find_nth_matching_found bi dag (nth + 1) s.tree 0 (by omega) (by omega)
  have hsome : ((inorder s.tree).filter (op_matches bi dag))[nth + 1 - 1 - 0]?
      = some (((inorder s.tree).filter (op_matches bi dag)).get ⟨nth, hcount⟩) := by
    simp only [Nat.add_sub_cancel, Nat.sub_zero]
    exact List.getElem?_eq_getElem hcount
  set x := ((inorder s.tree).filter (op_matches bi dag)).get ⟨nth, hcount⟩ with hx
  have hxmem : x ∈ inorder s.tree :=
    List.mem_of_mem_filter (List.get_mem _ _ hcount)
  have hdel : try_delete nth bi dag s = .ok ({ s with
      removed_node_ids := s.removed_node_ids ++ [x.id],
      removed_keys := s.removed_keys ++ [x.key],
      tree := set_delete_flag x.id (set_modified_from_root_to x.key s.tree),
      tree_size := s.tree_size - 1 }, x.key) := by
    unfold try_delete
    rw [hfound]
    dsimp only
    rw [hsome]
  refine ⟨_, x, hdel, by simpa using hsome, ?_,
    path_recs_getLast s.tree x hb hxmem, rfl, rfl, rfl⟩
  rw [inorder_set_delete_flag, inorder_set_modified_from_root_to _ _ hnd, List.map_map]
  refine List.map_congr_left (fun r _ => ?_)
  simp only [Function.comp_apply]
  by_cases hcp : r.id ∈ (path_recs x.key s.tree).map (fun q => q.id)
  · have hc : ((path_recs x.key s.tree).map (fun q => q.id)).contains r.id = true :=
      List.elem_iff.mpr hcp
    simp only [hc, eq_self_iff_true, if_true]
    by_cases hid : r.id = x.id
    · dsimp only
      rw [if_pos hid, if_pos hid]
    · dsimp only
      rw [if_neg hid, if_neg hid]
  · have hc : ((path_recs x.key s.tree).map (fun q => q.id)).contains r.id = false := by
      simpa [List.elem_iff] using hcp
    simp only [hc, Bool.false_eq_true, if_false]
    by_cases hid : r.id = x.id
    · dsimp only
      rw [if_pos hid, if_pos hid]
    · dsimp only
      rw [if_neg hid, if_neg hid]

/-- Witness for C7: deleting the first annihilation operator of block 0 in
the sample state. -/
theorem c7_try_delete_marks_witness :
    ∃ s2 x,
      try_delete 0 0 false s_base = .ok (s2, x.key)
      ∧ ((inorder s_base.tree).filter (op_matches 0 false))[0]? = some x
      ∧ inorder s2.tree = (inorder s_base.tree).map (fun r =>
          { r with
            modified := if ((path_recs x.key s_base.tree).map (fun q => q.id)).contains r.id
                        then true else r.modified,
            delete_flag := if r.id = x.id then true else r.delete_flag })
      ∧ (path_recs x.key s_base.tree).getLast? = some x
      ∧ s2.tree_size = s_base.tree_size - 1
      ∧ s2.removed_keys = s_base.removed_keys ++ [x.key]
      ∧ s2.removed_node_ids = s_base.removed_node_ids ++ [x.id] :=
  c7_try_delete_marks s_base 0 0 false (by decide) (by decide) (by decide)

/-! ### Claim C8: path marking of the three try operations -/

/-- Every node on the comparator descent towards key `tau` is flagged
modified (the path from the root to a node freshly glued at `tau`,
endpoint included). -/
def search_path_marked (tau : Nat) : tree_t → Prop
  | .nil => True
  | .node r l rt =>
    r.modified = true ∧
      (if cmp_keys tau r.key then search_path_marked tau l
       else search_path_marked tau rt)

/-- Every node on the comparator descent towards (and including) the node
with key `k` is flagged modified. -/
def path_to_key_marked (k : Nat) : tree_t → Prop
  | .nil => True
  | .node r l rt =>
    r.modified = true ∧
      (if k = r.key then True
       else if cmp_keys k r.key then path_to_key_marked k l
       else path_to_key_marked k rt)

/-- Does the substitution change the descriptor of this node (compared, as
the source does, by `linear_index`)? -/
def op_changed_by (sc scd : List op_desc) (r : node_rec) : Bool :=
  decide (¬ (sub_for sc scd r.op).linear_index = r.op.linear_index)

/-- Does the substitution change any operator of the subtree? -/
def has_change (sc scd : List op_desc) : tree_t → Bool
  | .nil => false
  | .node r l rt => op_changed_by sc scd r || has_change sc scd l || has_change sc scd rt

/-- `t2`, a rebuilt tree of the same shape as `t`, carries a modified flag
on every node whose subtree holds an operator the substitution changes:
i.e. on every node of the root-to-changed-node paths. -/
def replace_marks (sc scd : List op_desc) : tree_t → tree_t → Prop
  | .nil, .nil => True
  | .node r l rt, .node r2 l2 rt2 =>
    (has_change sc scd (.node r l rt) = true → r2.modified = true)
    ∧ replace_marks sc scd l l2 ∧ replace_marks sc scd rt rt2
  | _, _ => False

/-- `try_insert_impl` marks every node it descends through; the glued
trial node itself was marked by its reset, so the whole root-to-new-node
path is flagged. -/
lemma try_insert_impl_marks (t : tree_t) : ∀ (n t2 : tree_t) (rec : Option (Nat × Bool)),
    (root_rec n).modified = true → is_leaf_node n = true →
    try_insert_impl t n = .ok (t2, rec) →
    search_path_marked (key_of n) t2 := by
  induction t with
  | nil =>
    intro n t2 rec hmod hleaf hok
    rw [try_insert_impl] at hok
    simp only [Except.ok.injEq, Prod.mk.injEq] at hok
    obtain ⟨rfl, -⟩ := hok
    rcases n with _ | ⟨r, l, rt⟩
    · exact trivial
    · rcases l with _ | _
      · rcases rt with _ | _
        · refine ⟨hmod, ?_⟩
          dsimp only [key_of]
          rw [if_neg (by simp [cmp_keys])]
          exact trivial
        · exact absurd hleaf (by simp [is_leaf_node])
      · exact absurd hleaf (by simp [is_leaf_node])
  | node r l rt ihl ihr =>
    intro n t2 rec hmod hleaf hok
    rw [try_insert_impl] at hok
    by_cases he : r.key = key_of n
    · rw [if_pos he] at hok
      exact absurd hok (by simp)
    · rw [if_neg he] at hok
      by_cases hcmp : cmp_keys (key_of n) r.key
      · rw [if_pos hcmp] at hok
        cases himpl : try_insert_impl l n with
        | error e => rw [himpl] at hok; exact absurd hok (by simp)
        | ok p =>
          obtain ⟨l2, rec1⟩ := p
          rw [himpl] at hok
          simp only [Except.ok.injEq, Prod.mk.injEq] at hok
          obtain ⟨rfl, -⟩ := hok
          exact ⟨rfl, by rw [if_pos hcmp]; exact ihl n l2 rec1 hmod hleaf himpl⟩
      · rw [if_neg hcmp] at hok
        cases himpl : try_insert_impl rt n with
        | error e => rw [himpl] at hok; exact absurd hok (by simp)
        | ok p =>
          obtain ⟨rt2, rec1⟩ := p
          rw [himpl] at hok
          simp only [Except.ok.injEq, Prod.mk.injEq] at hok
          obtain ⟨rfl, -⟩ := hok
          exact ⟨rfl, by rw [if_neg hcmp]; exact ihr n rt2 rec1 hmod hleaf himpl⟩

/-- `set_modified_from_root_to` flags its whole descent path. -/
lemma set_modified_from_root_to_marks (k : Nat) (t : tree_t) :
    path_to_key_marked k (set_modified_from_root_to k t) := by
  induction t with
  | nil => exact trivial
  | node r l rt ihl ihr =>
    rw [set_modified_from_root_to]
    by_cases h1 : k = r.key
    · rw [if_pos h1]
      exact ⟨rfl, by rw [if_pos h1]; exact trivial⟩
    · rw [if_neg h1]
      by_cases h2 : cmp_keys k r.key
      · rw [if_pos h2]
        exact ⟨rfl, by rw [if_neg h1, if_pos h2]; exact ihl⟩
      · rw [if_neg h2]
        exact ⟨rfl, by rw [if_neg h1, if_neg h2]; exact ihr⟩

/-- Dropping more after equal drops stays equal. -/
lemma drop_eq_of_drop_eq {α : Type} (l1 l2 : List α) (n m : Nat) (hnm : n ≤ m)
    (h : l1.drop n = l2.drop n) : l1.drop m = l2.drop m := by
  have h1 : l1.drop m = (l1.drop n).drop (m - n) := by
    rw [List.drop_drop]
    congr 1
    omega
  have h2 : l2.drop m = (l2.drop n).drop (m - n) := by
    rw [List.drop_drop]
    congr 1
    omega
  rw [h1, h2, h]

/-- Element lookup beyond an index where two lists share their tail. -/
lemma getD_eq_of_drop_eq {α : Type} (l1 l2 : List α) (d : α) (n m : Nat)
    (hnm : n ≤ m) (h : l1.drop n = l2.drop n) : l1.getD m d = l2.getD m d := by
  rw [List.getD_eq_getElem?_getD, List.getD_eq_getElem?_getD]
  have h1 : (l1.drop n)[m - n]? = l1[m]? := by
    rw [List.getElem?_drop]
    congr 1
    omega
  have h2 : (l2.drop n)[m - n]? = l2[m]? := by
    rw [List.getElem?_drop]
    congr 1
    omega
  rw [← h1, ← h2, h]

/-- A defaulted lookup at a live index beyond `n` lies in the tail from
`n`. -/
lemma getD_mem_drop {α : Type} (l : List α) (d : α) (n m : Nat) (hnm : n ≤ m)
    (hm : m < l.length) : l.getD m d ∈ l.drop n := by
  have h1 : (l.drop n)[m - n]? = l[m]? := by
    rw [List.getElem?_drop]
    congr 1
    omega
  rw [List.getD_eq_getElem l d hm]
  exact List.getElem?_mem (by rw [h1]; exact List.getElem?_eq_getElem hm)

/-- The root id of a nonempty tree is one of its ids. -/
lemma root_id_mem_tree_ids (t : tree_t) (h : ¬ t = .nil) : root_id t ∈ tree_ids t := by
  cases t with
  | nil => exact absurd rfl h
  | node r l rt => exact List.mem_cons_self _ _

/-- Setting a delete flag touches neither keys nor modified flags, so a
marked path stays marked. -/
lemma set_delete_flag_preserves_marked (idv k : Nat) (t : tree_t)
    (h : path_to_key_marked k t) : path_to_key_marked k (set_delete_flag idv t) := by
  induction t with
  | nil => exact trivial
  | node r l rt ihl ihr =>
    obtain ⟨h1, h2⟩ := h
    rw [set_delete_flag]
    have hkey : (if r.id = idv then { r with delete_flag := true } else r).key = r.key := by
      by_cases hid : r.id = idv <;> simp [hid]
    have hmod : (if r.id = idv then { r with delete_flag := true } else r).modified
        = r.modified := by
      by_cases hid : r.id = idv <;> simp [hid]
    refine ⟨by rw [hmod]; exact h1, ?_⟩
    rw [hkey]
    by_cases hk1 : k = r.key
    · rw [if_pos hk1]
      exact trivial
    · rw [if_neg hk1] at h2 ⊢
      by_cases hk2 : cmp_keys k r.key
      · rw [if_pos hk2] at h2 ⊢
        exact ihl h2
      · rw [if_neg hk2] at h2 ⊢
        exact ihr h2

/-- Main characterization of `try_replace_impl`: the pool index never
retreats and advances at most one slot per node; the pool keeps its
length; slots at or beyond the final index are untouched; an unchanged
subtree is returned as-is with the pool untouched; a changed subtree comes
back rooted at a marked fresh pool node; and the rebuilt tree marks every
node on a root-to-changed-node path.  The freshness hypothesis says the
unused pool slots are detached nodes, not aliases of linked ones. -/
lemma try_replace_impl_spec (sc scd : List op_desc) :
    ∀ (t : tree_t) (pool : List tree_t) (j : Nat),
    (∀ e ∈ pool.drop j, root_id e ∉ tree_ids t) →
    j + node_count t ≤ pool.length →
    (j ≤ (try_replace_impl sc scd t pool j).2.2
      ∧ (try_replace_impl sc scd t pool j).2.2 ≤ j + node_count t)
    ∧ (try_replace_impl sc scd t pool j).2.1.length = pool.length
    ∧ (try_replace_impl sc scd t pool j).2.1.drop (try_replace_impl sc scd t pool j).2.2
        = pool.drop (try_replace_impl sc scd t pool j).2.2
    ∧ (has_change sc scd t = false → try_replace_impl sc scd t pool j = (t, pool, j))
    ∧ (has_change sc scd t = true →
        (root_rec (try_replace_impl sc scd t pool j).1).modified = true
        ∧ root_id (try_replace_impl sc scd t pool j).1 ∉ tree_ids t)
    ∧ replace_marks sc scd t (try_replace_impl sc scd t pool j).1 := by
  intro t
  induction t with
  | nil =>
    intro pool j hfresh hlen
    rw [try_replace_impl]
    exact ⟨⟨le_refl j, by simp [node_count]⟩, rfl, rfl, fun _ => rfl,
      fun h => by simp [has_change] at h, trivial⟩
  | node r l rt ihl ihr =>
    intro pool j hfresh hlen
    have hsub_l : ∀ x ∈ tree_ids l, x ∈ tree_ids (tree_t.node r l rt) := by
      intro x hx
      simp only [tree_ids, List.mem_cons, List.mem_append]
      exact Or.inr (Or.inl hx)
    have hsub_rt : ∀ x ∈ tree_ids rt, x ∈ tree_ids (tree_t.node r l rt) := by
      intro x hx
      simp only [tree_ids, List.mem_cons, List.mem_append]
      exact Or.inr (Or.inr hx)
    have hcnt : node_count (tree_t.node r l rt) = node_count l + node_count rt + 1 := rfl
    -- the left recursive call
    have hfresh_l : ∀ e ∈ pool.drop j, root_id e ∉ tree_ids l :=
      fun e he hin => hfresh e he (hsub_l _ hin)
    have hlen_l : j + node_count l ≤ pool.length := by omega
    obtain ⟨⟨hj1a, hj1b⟩, hlen1, hdrop1, hnc1, hc1, hm1⟩ := ihl pool j hfresh_l hlen_l
    rcases hPL : try_replace_impl sc scd l pool j with ⟨l2, pool1, j1⟩
    rw [hPL] at hj1a hj1b hlen1 hdrop1 hnc1 hc1 hm1
    simp only at hj1a hj1b hlen1 hdrop1 hnc1 hc1 hm1
    -- the right recursive call
    have hfresh_rt : ∀ e ∈ pool1.drop j1, root_id e ∉ tree_ids rt := by
      intro e he hin
      rw [hdrop1] at he
      have hej : e ∈ pool.drop j := by
        have hd : pool.drop j1 = (pool.drop j).drop (j1 - j) := by
          rw [List.drop_drop]
          congr 1
          omega
        exact List.drop_subset _ _ (hd ▸ he)
      exact hfresh e hej (hsub_rt _ hin)
    have hlen_rt : j1 + node_count rt ≤ pool1.length := by omega
    obtain ⟨⟨hj2a, hj2b⟩, hlen2, hdrop2, hnc2, hc2, hm2⟩ := ihr pool1 j1 hfresh_rt hlen_rt
    rcases hPR : try_replace_impl sc scd rt pool1 j1 with ⟨rt2, pool2, j2⟩
    rw [hPR] at hj2a hj2b hlen2 hdrop2 hnc2 hc2 hm2
    simp only at hj2a hj2b hlen2 hdrop2 hnc2 hc2 hm2
    -- tails of pool2 beyond j2 agree with pool
    have hdrop2_pool : pool2.drop j2 = pool.drop j2 := by
      rw [hdrop2]
      exact drop_eq_of_drop_eq pool1 pool j1 j2 hj2a hdrop1
    by_cases hcond : (sub_for sc scd r.op).linear_index ≠ r.op.linear_index
        ∨ l2 ≠ l ∨ rt2 ≠ rt
    · -- swap branch: this node is copied into the pool
      have hmain : try_replace_impl sc scd (tree_t.node r l rt) pool j
          = (tree_t.node
               { (if (sub_for sc scd r.op).linear_index ≠ r.op.linear_index
                  then { root_rec (pool2.getD j2 tree_t.nil) with
                         key := r.key, op := sub_for sc scd r.op }
                  else { root_rec (pool2.getD j2 tree_t.nil) with
                         key := r.key, op := r.op })
                 with color := r.color, n_count := r.n_count, modified := true }
               l2 rt2,
             pool2.set j2 (tree_t.node r l rt), j2 + 1) := by
        rw [try_replace_impl]
        dsimp only
        rw [hPL]
        dsimp only
        rw [hPR]
        dsimp only
        rw [if_pos hcond]
      rw [hmain]
      dsimp only
      have hj2_lt : j2 < pool.length := by omega
      have hslot : pool2.getD j2 tree_t.nil = pool.getD j2 tree_t.nil :=
        getD_eq_of_drop_eq pool2 pool tree_t.nil j2 j2 (le_refl j2) hdrop2_pool
      have hmem_slot : pool.getD j2 tree_t.nil ∈ pool.drop j :=
        getD_mem_drop pool tree_t.nil j j2 (by omega) hj2_lt
      have hfresh_slot : root_id (pool.getD j2 tree_t.nil)
          ∉ tree_ids (tree_t.node r l rt) := hfresh _ hmem_slot
      have hid_eq : (root_rec (pool2.getD j2 tree_t.nil)).id
          = root_id (pool.getD j2 tree_t.nil) := by
        rw [hslot]
        cases pool.getD j2 tree_t.nil <;> rfl
      refine ⟨⟨by omega, by omega⟩, ?_, ?_, ?_, ?_, ?_⟩
      · rw [List.length_set, hlen2, hlen1]
      · rw [List.drop_set_of_lt _ _ (Nat.lt_succ_self j2)]
        exact drop_eq_of_drop_eq pool2 pool j2 (j2 + 1) (by omega) hdrop2_pool
      · intro h
        exfalso
        simp only [has_change, Bool.or_eq_false_iff] at h
        obtain ⟨⟨hop, hl⟩, hrt⟩ := h
        simp only [op_changed_by, decide_eq_false_iff_not, not_not] at hop
        have hPLeq := hnc1 hl
        have hPReq := hnc2 hrt
        simp only [Prod.mk.injEq] at hPLeq hPReq
        rcases hcond with hne | hne | hne
        · exact hne hop
        · exact hne hPLeq.1
        · exact hne hPReq.1
      · intro _
        refine ⟨rfl, ?_⟩
        dsimp only [root_id]
        by_cases hop : (sub_for sc scd r.op).linear_index ≠ r.op.linear_index
        · rw [if_pos hop]
          dsimp only
          rw [hid_eq]
          exact hfresh_slot
        · rw [if_neg hop]
          dsimp only
          rw [hid_eq]
          exact hfresh_slot
      · exact ⟨fun _ => rfl, hm1, hm2⟩
    · -- no copy: unchanged descriptor and unchanged children return the node as-is
      push_neg at hcond
      obtain ⟨hop_eq, hl2, hrt2⟩ := hcond
      have hmain : try_replace_impl sc scd (tree_t.node r l rt) pool j
          = (tree_t.node r l rt, pool2, j2) := by
        rw [try_replace_impl]
        dsimp only
        rw [hPL]
        dsimp only
        rw [hPR]
        dsimp only
        rw [if_neg (by push_neg; exact ⟨hop_eq, hl2, hrt2⟩)]
      have hl_false : has_change sc scd l = false := by
        by_contra htrue
        rw [Bool.not_eq_false] at htrue
        have hl_ne : ¬ l = tree_t.nil := by
          intro hnil
          rw [hnil] at htrue
          simp [has_change] at htrue
        have hfr := (hc1 htrue).2
        rw [hl2] at hfr
        exact hfr (root_id_mem_tree_ids l hl_ne)
      have hrt_false : has_change sc scd rt = false := by
        by_contra htrue
        rw [Bool.not_eq_false] at htrue
        have hrt_ne : ¬ rt = tree_t.nil := by
          intro hnil
          rw [hnil] at htrue
          simp [has_change] at htrue
        have hfr := (hc2 htrue).2
        rw [hrt2] at hfr
        exact hfr (root_id_mem_tree_ids rt hrt_ne)
      have hop_false : op_changed_by sc scd r = false := by
        simp [op_changed_by, hop_eq]
      have hchf : has_change sc scd (tree_t.node r l rt) = false := by
        simp [has_change, hop_false, hl_false, hrt_false]
      have hPLeq := hnc1 hl_false
      have hPReq := hnc2 hrt_false
      simp only [Prod.mk.injEq] at hPLeq hPReq
      obtain ⟨-, hpool1, hj1⟩ := hPLeq
      obtain ⟨-, hpool2, hj2⟩ := hPReq
      rw [hmain]
      dsimp only
      refine ⟨⟨by omega, by omega⟩, by rw [hlen2, hlen1], hdrop2_pool, ?_, ?_, ?_⟩
      · intro _
        rw [hpool2, hpool1, hj2, hj1]
      · intro h
        rw [hchf] at h
        exact absurd h Bool.false_ne_true
      · refine ⟨fun h => ?_, ?_, ?_⟩
        · rw [hchf] at h
          exact absurd h Bool.false_ne_true
        · exact hl2 ▸ hm1
        · exact hrt2 ▸ hm2

/-- `reserve` leaves every state component but the backup pool and the
allocator untouched, and afterwards the pool has at least the requested
number of slots. -/
lemma reserve_backup_length (s : State) (sz : Int) :
    sz ≤ ((reserve_backup s sz).backup_nodes.length : Int) := by
  rw [reserve_backup]
  by_cases h : sz > (s.backup_nodes.length : Int)
  · rw [if_pos h]
    simp only [List.length_append, List.length_map, List.length_range]
    omega
  · rw [if_neg h]
    omega

/-- Fields other than the backup pool and the allocator are unchanged by
`reserve`. -/
lemma reserve_backup_fields (s : State) (sz : Int) :
    (reserve_backup s sz).tree = s.tree
    ∧ (reserve_backup s sz).tree_size = s.tree_size
    ∧ (reserve_backup s sz).trial_nodes = s.trial_nodes
    ∧ (reserve_backup s sz).trial_index = s.trial_index
    ∧ (reserve_backup s sz).atomic_z = s.atomic_z
    ∧ (reserve_backup s sz).density_matrix = s.density_matrix
    ∧ (reserve_backup s sz).backup_index = s.backup_index
    ∧ (reserve_backup s sz).backup_nodes.take s.backup_nodes.length = s.backup_nodes := by
  rw [reserve_backup]
  by_cases h : sz > (s.backup_nodes.length : Int)
  · rw [if_pos h]
    exact ⟨rfl, rfl, rfl, rfl, rfl, rfl, rfl, by simp⟩
  · rw [if_neg h]
    exact ⟨rfl, rfl, rfl, rfl, rfl, rfl, rfl, by simp⟩

/-- After `reserve`, every pool slot is still detached from the tree:
pre-existing slots by assumption, freshly allocated ones because their ids
come from the allocator, above every linked id. -/
lemma reserve_backup_fresh (s : State) (sz : Int)
    (hold : ∀ e ∈ s.backup_nodes, root_id e ∉ tree_ids s.tree)
    (hbound : ∀ x ∈ tree_ids s.tree, x < s.next_id) :
    ∀ e ∈ (reserve_backup s sz).backup_nodes, root_id e ∉ tree_ids s.tree := by
  rw [reserve_backup]
  by_cases h : sz > (s.backup_nodes.length : Int)
  · rw [if_pos h]
    intro e he
    simp only [List.mem_append, List.mem_map, List.mem_range] at he
    rcases he with he | ⟨jj, -, rfl⟩
    · exact hold e he
    · intro hin
      have := hbound _ hin
      simp only [make_new_node, root_id] at this
      omega
  · rw [if_neg h]
    exact hold

/-- C8: every structural mutation of a try operation marks the root-to-
affected-node paths modified.  (a) a successful `try_insert` marks every
node on the descent to the new node (the glued node included, through its
reset); (b) `try_delete` marks every node on the descent to the deleted
node's key, endpoint included; (c) `try_replace` marks, for every node
whose operator the substitution tables change, the entire path from the
root to that node (every node whose subtree holds a change).  The cache
engine (`update_cache`, spec section 4.3) recomputes exactly the nodes
flagged modified before the next trace evaluation. -/
theorem c8_try_marks_paths :
    (∀ (s : State) (tau : Nat) (op : op_desc) (s2 : State),
      is_leaf_node (s.trial_nodes.getD (s.trial_index + 1).toNat tree_t.nil) = true →
      try_insert tau op s = (s2, none) →
      search_path_marked tau s2.tree)
    ∧ (∀ (nth bi : Nat) (dag : Bool) (s s2 : State) (k : Nat),
      try_delete nth bi dag s = .ok (s2, k) →
      path_to_key_marked k s2.tree)
    ∧ (∀ (sc scd : List op_desc) (s s2 : State),
      (∀ e ∈ s.backup_nodes, root_id e ∉ tree_ids s.tree) →
      (∀ x ∈ tree_ids s.tree, x < s.next_id) →
      size s.tree = (node_count s.tree : Int) →
      s.tree_size = size s.tree →
      try_replace sc scd s = (s2, none) →
      replace_marks sc scd s.tree s2.tree) := by
  refine ⟨?_, ?_, ?_⟩
  · -- (a) insertion
    intro s tau op s2 hleaf h
    rw [try_insert] at h
    by_cases hguard : s.trial_index > 3
    · rw [if_pos hguard] at h
      simp at h
    · rw [if_neg hguard] at h
      dsimp only at h
      cases hget : s.trial_nodes.get? (s.trial_index + 1).toNat with
      | none => rw [hget] at h; simp at h
      | some nd =>
        rw [hget] at h
        dsimp only at h
        have hnd : s.trial_nodes.getD (s.trial_index + 1).toNat tree_t.nil = nd := by
          rw [List.getD_eq_getElem?_getD, ← List.get?_eq_getElem?, hget]
          rfl
        rw [hnd] at hleaf
        cases himpl : try_insert_impl s.tree (reset_node nd tau op) with
        | error e => rw [himpl] at h; simp at h
        | ok p =>
          obtain ⟨t2, rec⟩ := p
          rw [himpl] at h
          simp only [Prod.mk.injEq] at h
          rcases nd with _ | ⟨ndr, ndl, ndrt⟩
          · exact absurd hleaf (by simp [is_leaf_node])
          · have hmarks := try_insert_impl_marks s.tree (reset_node (.node ndr ndl ndrt) tau op)
              t2 rec rfl (by
                rcases ndl with _ | _
                · rcases ndrt with _ | _
                  · rfl
                  · exact absurd hleaf (by simp [is_leaf_node])
                · exact absurd hleaf (by simp [is_leaf_node])) himpl
            have : s2.tree = t2 := by rw [← h.1]
            rw [this]
            exact hmarks
  · -- (b) deletion
    intro nth bi dag s s2 k h
    rw [try_delete] at h
    cases hfind : (find_nth_matching bi dag (nth + 1) s.tree 0).2 with
    | none => rw [hfind] at h; simp at h
    | some x =>
      rw [hfind] at h
      simp only [Except.ok.injEq, Prod.mk.injEq] at h
      obtain ⟨hs2, hk⟩ := h
      rw [← hs2, ← hk]
      exact set_delete_flag_preserves_marked x.id x.key
        (set_modified_from_root_to x.key s.tree)
        (set_modified_from_root_to_marks x.key s.tree)
  · -- (c) replacement
    intro sc scd s s2 hfresh hbound hsz hts h
    rw [try_replace] at h
    by_cases h0 : s.tree_size = 0
    · rw [if_pos h0] at h
      simp only [Prod.mk.injEq] at h
      obtain ⟨hs2, -⟩ := h
      have hnil : s.tree = tree_t.nil := by
        have hc0 : (node_count s.tree : Int) = 0 := by omega
        cases hcase : s.tree with
        | nil => rfl
        | node r l rt =>
          exfalso
          rw [hcase] at hc0
          simp only [node_count] at hc0
          omega
      rw [← hs2, hnil]
      exact trivial
    · rw [if_neg h0] at h
      by_cases hg : ¬ s.backup_index = -1
      · rw [if_pos hg] at h
        simp at h
      · rw [if_neg hg] at h
        dsimp only at h
        have htree_eq := (reserve_backup_fields s (size s.tree)).1
        have hfresh2 : ∀ e ∈ (reserve_backup s (size s.tree)).backup_nodes.drop 0,
            root_id e ∉ tree_ids (reserve_backup s (size s.tree)).tree := by
          rw [htree_eq, List.drop_zero]
          exact reserve_backup_fresh s (size s.tree) hfresh hbound
        have hlen2 : 0 + node_count (reserve_backup s (size s.tree)).tree
            ≤ (reserve_backup s (size s.tree)).backup_nodes.length := by
          have := reserve_backup_length s (size s.tree)
          rw [htree_eq]
          omega
        have hspec := try_replace_impl_spec sc scd (reserve_backup s (size s.tree)).tree
          (reserve_backup s (size s.tree)).backup_nodes 0 hfresh2 hlen2
        simp only [Prod.mk.injEq] at h
        obtain ⟨hs2, -⟩ := h
        have hteq : s2.tree = (try_replace_impl sc scd (reserve_backup s (size s.tree)).tree
            (reserve_backup s (size s.tree)).backup_nodes 0).1 := by
          rw [← hs2]
        have hfin := hspec.2.2.2.2.2
        rw [htree_eq] at hfin hteq
        rw [hteq]
        exact hfin

/-- Witness for C8 on the sample state: a fresh insertion at time 7, a
deletion of the operator at time 5 (node id 0), and a substitution that
relabels flavour 0 to flavour 1. -/
theorem c8_try_marks_paths_witness :
    search_path_marked 7 (try_insert 7 op0 s_base).1.tree
    ∧ path_to_key_marked 5 (set_delete_flag 0 (set_modified_from_root_to 5 s_base.tree))
    ∧ replace_marks [⟨false, 0, 1⟩] [⟨false, 0, 1⟩] s_base.tree
        (try_replace [⟨false, 0, 1⟩] [⟨false, 0, 1⟩] s_base).1.tree :=
  ⟨c8_try_marks_paths.1 s_base 7 op0 (try_insert 7 op0 s_base).1 (by decide) (by decide),
   c8_try_marks_paths.2.1 0 0 false s_base _ 5 rfl,
   c8_try_marks_paths.2.2 [⟨false, 0, 1⟩] [⟨false, 0, 1⟩] s_base
     (try_replace [⟨false, 0, 1⟩] [⟨false, 0, 1⟩] s_base).1
     (by decide) (by decide) (by decide) (by decide) (by decide)⟩

/-! ### Claim C6 -/

/-- When no descriptor changes, `try_replace_impl` returns the tree as-is
and leaves the pool untouched (no hypotheses needed: the no-copy path
never reads the pool). -/
lemma try_replace_impl_nochange (sc scd : List op_desc) (t : tree_t)
    (h : has_change sc scd t = false) :
    ∀ pool j, try_replace_impl sc scd t pool j = (t, pool, j) := by
  induction t with
  | nil => intro pool j; rw [try_replace_impl]
  | node r l rt ihl ihr =>
    intro pool j
    simp only [has_change, Bool.or_eq_false_iff] at h
    obtain ⟨⟨hop, hl⟩, hrt⟩ := h
    simp only [op_changed_by, decide_eq_false_iff_not, not_not] at hop
    rw [try_replace_impl]
    dsimp only
    rw [ihl hl pool j]
    dsimp only
    rw [ihr hrt pool j]
    dsimp only
    rw [if_neg (by push_neg; exact ⟨hop, rfl, rfl⟩)]

/-- With every modified flag clear, the cache engine skips the whole tree
(the memoization rule of spec section 4.3). -/
lemma update_cache_spec_unmodified (recompute : tree_t → cache_t) (t : tree_t)
    (h : all_unmodified t = true) : update_cache_spec recompute t = t := by
  cases t with
  | nil => rfl
  | node r l rt =>
    simp only [all_unmodified, Bool.and_eq_true, Bool.not_eq_true'] at h
    rw [update_cache_spec, if_neg (by rw [h.1.1]; exact Bool.false_ne_true)]

/-- Clearing modified flags is the identity on a tree with none set. -/
lemma clear_modified_unmodified (t : tree_t) (h : all_unmodified t = true) :
    clear_modified t = t := by
  induction t with
  | nil => rfl
  | node r l rt ihl ihr =>
    simp only [all_unmodified, Bool.and_eq_true, Bool.not_eq_true'] at h
    rw [clear_modified, ihl h.1.2, ihr h.2]
    congr 1
    cases r
    simp_all

/-- If the substitution fixes every linked descriptor, no subtree has a
change. -/
lemma has_change_false_of_pointwise (sc scd : List op_desc) (t : tree_t)
    (h : ∀ r ∈ inorder t, op_changed_by sc scd r = false) :
    has_change sc scd t = false := by
  induction t with
  | nil => rfl
  | node r l rt ihl ihr =>
    have hroot : op_changed_by sc scd r = false := h r (by simp [inorder])
    have hl : has_change sc scd l = false :=
      ihl (fun q hq => h q (by simp [inorder, hq]))
    have hrt : has_change sc scd rt = false :=
      ihr (fun q hq => h q (by simp [inorder, hq]))
    simp [has_change, hroot, hl, hrt]

/-- C6: `try_replace` with identity substitution tables (each flavour index
mapped to itself in both the creation and the annihilation table, every
linked flavour covered) followed by `confirm_replace` is a no-op: no error,
the observable state (tree with all caches, `tree_size`, partition
function, density matrix — hence trace and weight, which are functions of
it) is unchanged, the backup index stays reset and no node is copied into
the substitution pool (its pre-existing slots are untouched; `reserve` may
append fresh blank nodes, which are copies of nothing). -/
theorem c6_identity_replace_noop (s : State) (sc scd : List op_desc)
    (recompute : tree_t → cache_t)
    (hq : s.backup_index = -1)
    (hmod : all_unmodified s.tree = true)
    (hid_c : ∀ jj : Nat, jj < sc.length → (sc.getD jj default).linear_index = jj)
    (hid_cd : ∀ jj : Nat, jj < scd.length → (scd.getD jj default).linear_index = jj)
    (hcover : ∀ r ∈ inorder s.tree,
      r.op.linear_index < (if r.op.dagger then scd else sc).length) :
    (try_replace sc scd s).2 = none
    ∧ obs (confirm_replace recompute (try_replace sc scd s).1) = obs s
    ∧ (confirm_replace recompute (try_replace sc scd s).1).backup_index = -1
    ∧ (confirm_replace recompute (try_replace sc scd s).1).backup_nodes.take
        s.backup_nodes.length = s.backup_nodes := by
  have hpt : ∀ r ∈ inorder s.tree, op_changed_by sc scd r = false := by
    intro r hr
    have hlt := hcover r hr
    simp only [op_changed_by, decide_eq_false_iff_not, not_not, sub_for]
    by_cases hd : r.op.dagger
    · rw [if_pos hd]
      rw [if_pos hd] at hlt
      exact hid_cd _ hlt
    · rw [if_neg hd]
      rw [if_neg hd] at hlt
      exact hid_c _ hlt
  have hchf : has_change sc scd s.tree = false := has_change_false_of_pointwise sc scd _ hpt
  rw [try_replace]
  by_cases h0 : s.tree_size = 0
  · rw [if_pos h0]
    refine ⟨rfl, ?_, rfl, List.take_length s.backup_nodes⟩
    show obs (confirm_replace recompute s) = obs s
    rw [confirm_replace]
    dsimp only
    rw [update_cache_spec_unmodified recompute s.tree hmod,
      clear_modified_unmodified s.tree hmod]
    rfl
  · rw [if_neg h0, if_neg (by rw [hq]; exact fun h => h rfl)]
    dsimp only
    obtain ⟨htr, hts, -, -, haz, hdm, hbi, htake⟩ := reserve_backup_fields s (size s.tree)
    have himpl := try_replace_impl_nochange sc scd (reserve_backup s (size s.tree)).tree
      (by rw [htr]; exact hchf) (reserve_backup s (size s.tree)).backup_nodes 0
    rw [himpl]
    dsimp only
    refine ⟨rfl, ?_, rfl, ?_⟩
    · rw [confirm_replace]
      dsimp only
      rw [htr, update_cache_spec_unmodified recompute s.tree hmod,
        clear_modified_unmodified s.tree hmod]
      simp only [obs, hts, haz, hdm]
    · exact htake

/-- Witness for C6 on the sample state with the one-flavour identity
table. -/
theorem c6_identity_replace_noop_witness :
    (try_replace [op0] [op0] s_base).2 = none
    ∧ obs (confirm_replace (fun t => root_rec t |>.cache)
        (try_replace [op0] [op0] s_base).1) = obs s_base
    ∧ (confirm_replace (fun t => root_rec t |>.cache)
        (try_replace [op0] [op0] s_base).1).backup_index = -1
    ∧ (confirm_replace (fun t => root_rec t |>.cache)
        (try_replace [op0] [op0] s_base).1).backup_nodes.take
        s_base.backup_nodes.length = s_base.backup_nodes :=
  c6_identity_replace_noop s_base [op0] [op0] (fun t => root_rec t |>.cache)
    (by decide) (by decide)
    (by
      intro jj h
      simp only [List.length_cons, List.length_nil] at h
      have hj : jj = 0 := by omega
      subst hj
      decide)
    (by
      intro jj h
      simp only [List.length_cons, List.length_nil] at h
      have hj : jj = 0 := by omega
      subst hj
      decide)
    (by decide)

/-! ### Claims C1 / C9: unwinding trial insertions -/

/-- Bool membership test as a decidable proposition. -/
lemma contains_decide {α : Type} [DecidableEq α] (l : List α) (a : α) :
    l.contains a = decide (a ∈ l) := by
  simp [List.contains_eq_any_beq]

/-- Records whose parents are not linked null nothing. -/
lemma strip_of_not_mem (recs : List (Option (Nat × Bool))) (t : tree_t)
    (h : ∀ p sd, (some (p, sd)) ∈ recs → p ∉ tree_ids t) :
    strip recs t = t := by
  induction t with
  | nil => rfl
  | node r l rt ihl ihr =>
    rw [strip]
    have h1 : ¬ recs.contains (some (r.id, true)) = true := by
      intro hc
      exact h r.id true (List.elem_iff.mp hc) (by simp [tree_ids])
    have h2 : ¬ recs.contains (some (r.id, false)) = true := by
      intro hc
      exact h r.id false (List.elem_iff.mp hc) (by simp [tree_ids])
    rw [if_neg h1, if_neg h2,
      ihl (fun p sd hin hmem => h p sd hin (by simp [tree_ids, hmem])),
      ihr (fun p sd hin hmem => h p sd hin (by simp [tree_ids, hmem]))]

/-- Unsplicing a concatenated batch of records equals unsplicing the
batches one after the other: a slot survives iff no record of either batch
names it. -/
lemma strip_append (A B : List (Option (Nat × Bool))) (t : tree_t) :
    strip (A ++ B) t = strip A (strip B t) := by
  induction t with
  | nil => rfl
  | node r l rt ihl ihr =>
    rw [strip, strip, strip]
    have key : ∀ (x : tree_t) (sv : Bool), strip (A ++ B) x = strip A (strip B x) →
        (if (A ++ B).contains (some (r.id, sv)) = true then tree_t.nil
         else strip (A ++ B) x)
        = (if A.contains (some (r.id, sv)) = true then tree_t.nil
           else strip A (if B.contains (some (r.id, sv)) = true then tree_t.nil
                         else strip B x)) := by
      intro x sv ih
      by_cases hA : some (r.id, sv) ∈ A
      · rw [if_pos (List.elem_iff.mpr hA),
          if_pos (List.elem_iff.mpr (List.mem_append.mpr (Or.inl hA)))]
      · have hA2 : ¬ A.contains (some (r.id, sv)) = true :=
          fun hc => hA (List.elem_iff.mp hc)
        rw [if_neg hA2]
        by_cases hB : some (r.id, sv) ∈ B
        · rw [if_pos (List.elem_iff.mpr hB),
            if_pos (List.elem_iff.mpr (List.mem_append.mpr (Or.inr hB)))]
          rfl
        · have hB2 : ¬ B.contains (some (r.id, sv)) = true :=
            fun hc => hB (List.elem_iff.mp hc)
          have hAB : ¬ (A ++ B).contains (some (r.id, sv)) = true := by
            intro hc
            rcases List.mem_append.mp (List.elem_iff.mp hc) with hm | hm
            · exact hA hm
            · exact hB hm
          rw [if_neg hB2, if_neg hAB, ih]
    rw [key l true ihl, key rt false ihr]

/-- Clearing modified flags commutes with unsplicing (the records test only
ids). -/
lemma clear_modified_strip (recs : List (Option (Nat × Bool))) (t : tree_t) :
    clear_modified (strip recs t) = strip recs (clear_modified t) := by
  induction t with
  | nil => rfl
  | node r l rt ihl ihr =>
    rw [strip, clear_modified, clear_modified, strip]
    have key : ∀ (x : tree_t) (sv : Bool), clear_modified (strip recs x) = strip recs (clear_modified x) →
        clear_modified (if recs.contains (some (r.id, sv)) = true then tree_t.nil
                        else strip recs x)
        = (if recs.contains (some ((⟨r.id, r.key, r.op, r.cache, r.color, r.n_count,
              false, r.delete_flag⟩ : node_rec).id, sv)) = true then tree_t.nil
           else strip recs (clear_modified x)) := by
      intro x sv ih
      by_cases hc : recs.contains (some (r.id, sv)) = true
      · rw [if_pos hc, if_pos hc]
        rfl
      · rw [if_neg hc, if_neg hc, ih]
    rw [key l true ihl, key rt false ihr]

/-- Node ids are untouched by `clear_modified`. -/
lemma tree_ids_clear_modified (t : tree_t) :
    tree_ids (clear_modified t) = tree_ids t := by
  induction t with
  | nil => rfl
  | node r l rt ihl ihr => rw [clear_modified, tree_ids, tree_ids, ihl, ihr]

/-- The root subtree count is untouched by `clear_modified`. -/
lemma size_clear_modified (t : tree_t) : size (clear_modified t) = size t := by
  cases t <;> rfl

/-- Taking a prefix before an overwritten slot ignores the write. -/
lemma take_set_of_le {α : Type} (l : List α) (n m : Nat) (x : α) (h : n ≤ m) :
    (l.set m x).take n = l.take n := by
  induction l generalizing n m with
  | nil => rfl
  | cons a l ih =>
    cases m with
    | zero =>
      cases n with
      | zero => rfl
      | succ n => omega
    | succ m =>
      cases n with
      | zero => rfl
      | succ n =>
        simp only [List.set_cons_succ, List.take_succ_cons]
        rw [ih n m (by omega)]

/-- In a duplicate-free list, the element at position `k` is not among the
first `k`. -/
lemma nodup_get_not_mem_take {α : Type} (l : List α) (k : Nat) (hk : k < l.length)
    (hnd : l.Nodup) : l.get ⟨k, hk⟩ ∉ l.take k := by
  intro hmem
  have hnd2 : (l.take k ++ l.drop k).Nodup := by
    rw [List.take_append_drop]
    exact hnd
  rw [List.drop_eq_getElem_cons hk, List.nodup_append] at hnd2
  exact (hnd2.2.2 hmem) (List.mem_cons_self _ _)

/-- The ids of a detached leaf node. -/
lemma tree_ids_leaf (n : tree_t) (h : is_leaf_node n = true) :
    tree_ids n = [root_id n] := by
  cases n with
  | nil => exact absurd h (by simp [is_leaf_node])
  | node r l rt =>
    cases l with
    | nil =>
      cases rt with
      | nil => rfl
      | node _ _ _ => exact absurd h (by simp [is_leaf_node])
    | node _ _ _ => exact absurd h (by simp [is_leaf_node])

/-- Undoing one trial splice: on a nonempty tree a successful
`try_insert_impl` records the new node's parent and side; nulling that
slot restores the original tree up to the modified flags set along the
descent, and the rebuilt tree's ids are the original ids plus the trial
node's. -/
lemma try_insert_impl_strip (t : tree_t) : ∀ (n t2 : tree_t) (rec : Option (Nat × Bool)),
    ¬ t = tree_t.nil → is_leaf_node n = true →
    root_id n ∉ tree_ids t → (tree_ids t).Nodup →
    try_insert_impl t n = .ok (t2, rec) →
    ∃ p sd, rec = some (p, sd) ∧ p ∈ tree_ids t
      ∧ clear_modified (strip [some (p, sd)] t2) = clear_modified t
      ∧ List.Perm (tree_ids t2) (root_id n :: tree_ids t) := by
  induction t with
  | nil =>
    intro n t2 rec hne
    exact absurd rfl hne
  | node r l rt ihl ihr =>
    intro n t2 rec hne hleaf hfresh hnd hok
    simp only [tree_ids, List.nodup_cons, List.nodup_append, List.mem_append] at hnd
    obtain ⟨hrnotin, hndl, hndrt, hdisj⟩ := hnd
    simp only [tree_ids, List.mem_cons, List.mem_append] at hfresh
    push_neg at hfresh
    obtain ⟨hfr, hfl, hfrt⟩ := hfresh
    rw [try_insert_impl] at hok
    by_cases he : r.key = key_of n
    · rw [if_pos he] at hok
      exact absurd hok (by simp)
    · rw [if_neg he] at hok
      by_cases hcmp : cmp_keys (key_of n) r.key
      · rw [if_pos hcmp] at hok
        cases himpl : try_insert_impl l n with
        | error e => rw [himpl] at hok; exact absurd hok (by simp)
        | ok q =>
          obtain ⟨l2, rec1⟩ := q
          rw [himpl] at hok
          simp only [Except.ok.injEq, Prod.mk.injEq] at hok
          obtain ⟨ht2, hrec⟩ := hok
          by_cases hl : l = tree_t.nil
          · subst hl
            rw [try_insert_impl] at himpl
            simp only [Except.ok.injEq, Prod.mk.injEq] at himpl
            obtain ⟨hl2, hrec1⟩ := himpl
            refine ⟨r.id, true, ?_, by simp [tree_ids], ?_, ?_⟩
            · rw [← hrec, ← hrec1]
              rfl
            · rw [← ht2, ← hl2, strip,
                if_pos (List.elem_iff.mpr (by simp)),
                if_neg (fun hc => by simpa using List.elem_iff.mp hc),
                strip_of_not_mem _ rt (by
                  intro p sd hin hmem
                  have hp2 : p = r.id :=
                    congrArg Prod.fst (Option.some.inj (List.mem_singleton.mp hin))
                  exact hrnotin (Or.inr (hp2 ▸ hmem))),
                clear_modified, clear_modified]
              rfl
            · rw [← ht2, ← hl2, tree_ids, tree_ids, tree_ids_leaf n hleaf]
              exact List.Perm.swap _ _ _
          · obtain ⟨p, sd, hrec1, hp, hclear, hids⟩ :=
              ihl n l2 rec1 hl hleaf hfl hndl himpl
            have hpr : ¬ p = r.id := fun he2 => hrnotin (Or.inl (he2 ▸ hp))
            refine ⟨p, sd, ?_, by simp [tree_ids, hp], ?_, ?_⟩
            · rw [← hrec, hrec1]
              rfl
            · rw [← ht2, strip,
                if_neg (fun hc => hpr (congrArg Prod.fst (Option.some.inj
                  (List.mem_singleton.mp (List.elem_iff.mp hc)))).symm),
                if_neg (fun hc => hpr (congrArg Prod.fst (Option.some.inj
                  (List.mem_singleton.mp (List.elem_iff.mp hc)))).symm),
                strip_of_not_mem _ rt (by
                  intro p2 sd2 hin hmem
                  have hp2 : p2 = p :=
                    congrArg Prod.fst (Option.some.inj (List.mem_singleton.mp hin))
                  exact hdisj hp (hp2 ▸ hmem)),
                clear_modified, clear_modified, hclear]
            · rw [← ht2, tree_ids, tree_ids]
              exact (List.Perm.cons _ (hids.append_right _)).trans (List.Perm.swap _ _ _)
      · rw [if_neg hcmp] at hok
        cases himpl : try_insert_impl rt n with
        | error e => rw [himpl] at hok; exact absurd hok (by simp)
        | ok q =>
          obtain ⟨rt2, rec1⟩ := q
          rw [himpl] at hok
          simp only [Except.ok.injEq, Prod.mk.injEq] at hok
          obtain ⟨ht2, hrec⟩ := hok
          by_cases hrt : rt = tree_t.nil
          · subst hrt
            rw [try_insert_impl] at himpl
            simp only [Except.ok.injEq, Prod.mk.injEq] at himpl
            obtain ⟨hrt2, hrec1⟩ := himpl
            refine ⟨r.id, false, ?_, by simp [tree_ids], ?_, ?_⟩
            · rw [← hrec, ← hrec1]
              rfl
            · rw [← ht2, ← hrt2, strip,
                if_neg (fun hc => by simpa using List.elem_iff.mp hc),
                if_pos (List.elem_iff.mpr (by simp)),
                strip_of_not_mem _ l (by
                  intro p sd hin hmem
                  have hp2 : p = r.id :=
                    congrArg Prod.fst (Option.some.inj (List.mem_singleton.mp hin))
                  exact hrnotin (Or.inl (hp2 ▸ hmem))),
                clear_modified, clear_modified]
              rfl
            · rw [← ht2, ← hrt2, tree_ids, tree_ids, tree_ids_leaf n hleaf]
              simp only [tree_ids, List.append_nil]
              exact (List.Perm.cons _ (List.perm_append_singleton _ _)).trans
                (List.Perm.swap _ _ _)
          · obtain ⟨p, sd, hrec1, hp, hclear, hids⟩ :=
              ihr n rt2 rec1 hrt hleaf hfrt hndrt himpl
            have hpr : ¬ p = r.id := fun he2 => hrnotin (Or.inr (he2 ▸ hp))
            refine ⟨p, sd, ?_, by simp [tree_ids, hp], ?_, ?_⟩
            · rw [← hrec, hrec1]
              rfl
            · rw [← ht2, strip,
                if_neg (fun hc => hpr (congrArg Prod.fst (Option.some.inj
                  (List.mem_singleton.mp (List.elem_iff.mp hc)))).symm),
                if_neg (fun hc => hpr (congrArg Prod.fst (Option.some.inj
                  (List.mem_singleton.mp (List.elem_iff.mp hc)))).symm),
                strip_of_not_mem _ l (by
                  intro p2 sd2 hin hmem
                  have hp2 : p2 = p :=
                    congrArg Prod.fst (Option.some.inj (List.mem_singleton.mp hin))
                  exact hdisj (hp2 ▸ hmem) hp),
                clear_modified, clear_modified, hclear]
            · rw [← ht2, tree_ids, tree_ids]
              exact ((List.Perm.cons _ (List.Perm.append_left _ hids)).trans
                (List.Perm.cons _ List.perm_middle)).trans (List.Perm.swap _ _ _)

/-- Resetting a node's key and operator keeps its identity. -/
lemma root_id_reset_node (n : tree_t) (tau : Nat) (op : op_desc) :
    root_id (reset_node n tau op) = root_id n := by
  cases n <;> rfl

/-- Resetting a node's key and operator keeps it a detached leaf. -/
lemma is_leaf_node_reset_node (n : tree_t) (tau : Nat) (op : op_desc) :
    is_leaf_node (reset_node n tau op) = is_leaf_node n := by
  cases n with
  | nil => rfl
  | node r l rt => cases l <;> cases rt <;> rfl

/-- Quiescence of an instance before a batch of trial insertions: pool
index reset, a clean 4-slot pool and 4-slot record array, no modified
flags, `tree_size` consistent with the maintained root count (which is
positive on a nonempty tree), and globally distinct node identities. -/
def insert_ready (s : State) : Prop :=
  s.trial_index = -1
  ∧ s.trial_nodes.length = 4
  ∧ s.inserted_nodes.length = 4
  ∧ (∀ e ∈ s.trial_nodes, is_leaf_node e = true)
  ∧ all_unmodified s.tree = true
  ∧ s.tree_size = size s.tree
  ∧ (s.tree = tree_t.nil ∨ 0 < size s.tree)
  ∧ (tree_ids s.tree ++ s.trial_nodes.map root_id).Nodup

/-- Inductive invariant after `k` successful trial insertions from the
quiescent state `s0`: the pool index and `tree_size` advanced by `k`, the
other members are untouched, unsplicing the recorded parent slots restores
the original tree up to modified flags, and the linked ids are the original
ones plus the first `k` pool ids. -/
structure ins_inv (s0 s : State) (k : Nat) : Prop where
  hidx : s.trial_index = (k : Int) - 1
  hsize : s.tree_size = s0.tree_size + (k : Int)
  hpool : s.trial_nodes = s0.trial_nodes
  hins_len : s.inserted_nodes.length = 4
  hfields : s.atomic_z = s0.atomic_z ∧ s.density_matrix = s0.density_matrix
    ∧ s.removed_node_ids = s0.removed_node_ids ∧ s.removed_keys = s0.removed_keys
    ∧ s.backup_nodes = s0.backup_nodes ∧ s.backup_index = s0.backup_index
    ∧ s.next_id = s0.next_id ∧ s.n_blocks = s0.n_blocks
  hk : k ≤ 4
  hrestore : ¬ s0.tree = tree_t.nil →
    clear_modified (strip (s.inserted_nodes.take k) s.tree) = s0.tree
  hids : List.Perm (tree_ids s.tree)
    (((s0.trial_nodes.take k).map root_id) ++ tree_ids s0.tree)

/-- The invariant holds before the first insertion. -/
lemma ins_inv_base (s0 : State) (h : insert_ready s0) : ins_inv s0 s0 0 := by
  obtain ⟨h1, h2, h3, h4, h5, h6, h7, h8⟩ := h
  refine ⟨by rw [h1]; decide, by simp, rfl, h3,
    ⟨rfl, rfl, rfl, rfl, rfl, rfl, rfl, rfl⟩, by omega, ?_, ?_⟩
  · intro hne
    rw [List.take_zero, strip_of_not_mem _ _ (by simp), clear_modified_unmodified _ h5]
  · simp

/-- One successful `try_insert` preserves the invariant. -/
lemma ins_inv_step (s0 s s2 : State) (k : Nat) (tau : Nat) (op : op_desc)
    (hready : insert_ready s0) (hinv : ins_inv s0 s k)
    (hstep : try_insert tau op s = (s2, none)) :
    ins_inv s0 s2 (k + 1) := by
  obtain ⟨hr1, hr2, hr3, hr4, hr5, hr6, hr7, hr8⟩ := hready
  obtain ⟨hidx, hsize, hpool, hins_len, hfields, hk, hrestore, hids⟩ := hinv
  rw [List.nodup_append] at hr8
  obtain ⟨hnd_tree0, hnd_pool0, hdisj0⟩ := hr8
  rw [try_insert, if_neg (by rw [hidx]; omega)] at hstep
  dsimp only at hstep
  have htoNat : (s.trial_index + 1).toNat = k := by rw [hidx]; omega
  rw [htoNat] at hstep
  cases hget : s.trial_nodes.get? k with
  | none =>
    rw [hget] at hstep
    exact absurd hstep (by simp)
  | some nd =>
    rw [hget] at hstep
    dsimp only at hstep
    rw [hpool] at hget
    obtain ⟨hk4L, hndval⟩ := List.get?_eq_some.mp hget
    have hk4 : k < 4 := by rw [← hr2]; exact hk4L
    cases himpl : try_insert_impl s.tree (reset_node nd tau op) with
    | error e =>
      rw [himpl] at hstep
      exact absurd hstep (by simp)
    | ok q =>
      obtain ⟨t2, rec⟩ := q
      rw [himpl] at hstep
      simp only [Prod.mk.injEq] at hstep
      obtain ⟨hs2, -⟩ := hstep
      have hnd_leaf : is_leaf_node nd = true :=
        hr4 nd (List.get?_mem hget)
      -- the trial node's id and where it cannot occur
      have hnid_take : root_id nd ∉ (s0.trial_nodes.take k).map root_id := by
        rw [List.map_take]
        intro hmem
        have hval : (s0.trial_nodes.map root_id).get
            ⟨k, by rw [List.length_map, hr2]; exact hk4⟩ = root_id nd := by
          rw [List.get_eq_getElem, List.getElem_map root_id]
          exact congrArg root_id (by rw [← hndval]; rfl)
        exact nodup_get_not_mem_take (s0.trial_nodes.map root_id) k
          (by rw [List.length_map, hr2]; exact hk4) hnd_pool0 (hval ▸ hmem)
      have hnid_pool : root_id nd ∈ s0.trial_nodes.map root_id := by
        exact List.mem_map.mpr ⟨nd, List.get?_mem hget, rfl⟩
      have hnid_tree0 : root_id nd ∉ tree_ids s0.tree :=
        fun hmem => hdisj0 hmem hnid_pool
      have hnid_s : root_id nd ∉ tree_ids s.tree := by
        intro hmem
        rcases List.mem_append.mp (hids.mem_iff.mp hmem) with hm | hm
        · exact hnid_take hm
        · exact hnid_tree0 hm
      have hnd_s_nodup : (tree_ids s.tree).Nodup := by
        rw [hids.nodup_iff]
        have hsub : List.Sublist ((s0.trial_nodes.take k).map root_id ++ tree_ids s0.tree)
            (s0.trial_nodes.map root_id ++ tree_ids s0.tree) :=
          (by rw [List.map_take]; exact List.take_sublist _ _ : List.Sublist
            ((s0.trial_nodes.take k).map root_id) (s0.trial_nodes.map root_id)).append_right _
        exact ((List.perm_append_comm.nodup_iff).mpr
          (List.nodup_append.mpr ⟨hnd_tree0, hnd_pool0, hdisj0⟩)).sublist hsub
      -- shared record-array bookkeeping
      have htake_new : ((s.inserted_nodes.set k none).set k rec).take (k + 1)
          = s.inserted_nodes.take k ++ [rec] := by
        rw [List.take_succ, take_set_of_le _ k k rec (le_refl k),
          take_set_of_le _ k k none (le_refl k),
          List.getElem?_set_self (by rw [List.length_set, hins_len]; omega)]
        rfl
      refine ⟨?_, ?_, by rw [← hs2]; exact hpool, ?_, ?_, by omega, ?_, ?_⟩
      · rw [← hs2]
        show s.trial_index + 1 = ((k + 1 : Nat) : Int) - 1
        rw [hidx]
        push_cast
        ring
      · rw [← hs2]
        show s.tree_size + 1 = s0.tree_size + ((k + 1 : Nat) : Int)
        rw [hsize]
        push_cast
        ring
      · rw [← hs2]
        simp [List.length_set, hins_len]
      · rw [← hs2]
        exact hfields
      · -- restoring the original tree
        intro hne0
        rw [← hs2]
        show clear_modified (strip (((s.inserted_nodes.set k none).set k rec).take (k + 1)) t2)
          = s0.tree
        rw [htake_new]
        have hne_s : ¬ s.tree = tree_t.nil := by
          intro hnil
          apply hne0
          have := hrestore hne0
          rw [hnil] at this
          have hstripnil : strip (s.inserted_nodes.take k) tree_t.nil = tree_t.nil := rfl
          rw [hstripnil] at this
          exact this.symm
        obtain ⟨p, sd, hrec, hp, hclear, -⟩ :=
          try_insert_impl_strip s.tree (reset_node nd tau op) t2 rec hne_s
            (by rw [is_leaf_node_reset_node]; exact hnd_leaf)
            (by rw [root_id_reset_node]; exact hnid_s) hnd_s_nodup himpl
        rw [hrec]
        show clear_modified (strip (s.inserted_nodes.take k ++ [some (p, sd)]) t2) = s0.tree
        rw [strip_append, clear_modified_strip, hclear, ← clear_modified_strip]
        exact hrestore hne0
      · -- id bookkeeping
        rw [← hs2]
        show List.Perm (tree_ids t2)
          ((s0.trial_nodes.take (k + 1)).map root_id ++ tree_ids s0.tree)
        have htk : (s0.trial_nodes.take (k + 1)).map root_id
            = (s0.trial_nodes.take k).map root_id ++ [root_id nd] := by
          rw [List.map_take, List.map_take, List.take_succ,
            List.getElem?_eq_getElem
              (by rw [List.length_map, hr2]; exact hk4 : k < (s0.trial_nodes.map root_id).length),
            List.getElem_map root_id]
          have hnd2 : s0.trial_nodes[k] = nd := hndval
          rw [hnd2]
          rfl
        rw [htk]
        by_cases hcase : s.tree = tree_t.nil
        · -- the whole tree is made of trial nodes: the first insertion
          rw [hcase] at himpl
          rw [try_insert_impl] at himpl
          simp only [Except.ok.injEq, Prod.mk.injEq] at himpl
          obtain ⟨ht2, -⟩ := himpl
          rw [← ht2, tree_ids_leaf _ (by rw [is_leaf_node_reset_node]; exact hnd_leaf),
            root_id_reset_node]
          have htake_nil : (s0.trial_nodes.take k).map root_id = [] := by
            have h0 : tree_ids s.tree = [] := by rw [hcase]; rfl
            have := hids
            rw [h0] at this
            have h2 := List.perm_nil.mp this.symm
            exact (List.append_eq_nil.mp h2).1
          rw [htake_nil]
          have h0 : tree_ids s0.tree = [] := by
            have := hids
            rw [show tree_ids s.tree = [] from by rw [hcase]; rfl] at this
            have h2 := List.perm_nil.mp this.symm
            exact (List.append_eq_nil.mp h2).2
          rw [h0]
          exact List.Perm.refl _
        · obtain ⟨p, sd, hrec, hp, hclear, hidsA⟩ :=
            try_insert_impl_strip s.tree (reset_node nd tau op) t2 rec hcase
              (by rw [is_leaf_node_reset_node]; exact hnd_leaf)
              (by rw [root_id_reset_node]; exact hnid_s) hnd_s_nodup himpl
          rw [root_id_reset_node] at hidsA
          refine hidsA.trans ?_
          refine (List.Perm.cons _ hids).trans ?_
          have hmid : List.Perm
              (root_id nd :: ((s0.trial_nodes.take k).map root_id ++ tree_ids s0.tree))
              (((s0.trial_nodes.take k).map root_id ++ [root_id nd]) ++ tree_ids s0.tree) := by
            rw [List.append_assoc]
            exact List.perm_middle.symm
          exact hmid

/-- The invariant is preserved along any run of `try_insert` calls in
which every call succeeds. -/
lemma ins_inv_run (L : List (Nat × op_desc)) (s0 : State) (hready : insert_ready s0) :
    ∀ (s : State) (k : Nat), ins_inv s0 s k → (run_inserts L s).2 = true →
      ins_inv s0 (run_inserts L s).1 (k + L.length) := by
  induction L with
  | nil =>
    intro s k hinv _
    exact hinv
  | cons p rest ih =>
    intro s k hinv hrun
    obtain ⟨tau, op⟩ := p
    rw [run_inserts] at hrun ⊢
    cases hstep : try_insert tau op s with
    | mk s1 e =>
      rw [hstep] at hrun
      cases e with
      | none =>
        dsimp only at hrun ⊢
        have h2 := ih s1 (k + 1) (ins_inv_step s0 s s1 k tau op hready hinv hstep) hrun
        rw [List.length_cons, show k + (rest.length + 1) = (k + 1) + rest.length from by omega]
        exact h2
      | some err =>
        dsimp only at hrun
        exact absurd hrun (by simp)

/-- Under the invariant the unlinking pass of `cancel_insert_impl` (which
is also the destructor's whole body) reconstructs the original tree up to
modified flags: when the original tree was empty so is the result (via the
root-nulling branch), otherwise the recorded parent slots are exactly the
glue points of the trial nodes. -/
lemma destructor_restores_of_inv (s0 s : State) (k : Nat)
    (hready : insert_ready s0) (hinv : ins_inv s0 s k) :
    clear_modified (cancel_insert_impl s).tree = s0.tree := by
  obtain ⟨hr1, hr2, hr3, hr4, hr5, hr6, hr7, hr8⟩ := hready
  obtain ⟨hidx, hsize, hpool, hins_len, hfields, hk, hrestore, hids⟩ := hinv
  rw [cancel_insert_impl]
  dsimp only
  by_cases hcase : s0.tree = tree_t.nil
  · have hsz0 : s0.tree_size = 0 := by rw [hr6, hcase]; rfl
    have hcond : s.tree_size = s.trial_index + 1 := by rw [hsize, hidx, hsz0]; omega
    rw [if_pos hcond, hcase]
    rfl
  · have hpos : 0 < size s0.tree := hr7.resolve_left hcase
    have h6 : 0 < s0.tree_size := by rw [hr6]; exact hpos
    have hcond : ¬ s.tree_size = s.trial_index + 1 := by rw [hsize, hidx]; omega
    rw [if_neg hcond, show (s.trial_index + 1).toNat = k from by rw [hidx]; omega]
    exact hrestore hcase

/-- Under the invariant the full `cancel_insert` restores the observable
state: the tree (with its modified flags cleared by the final
`clear_modified` pass), the recomputed `tree_size`, and the untouched
weight and density matrix. -/
lemma cancel_insert_restores_of_inv (s0 s : State) (k : Nat)
    (hready : insert_ready s0) (hinv : ins_inv s0 s k) :
    obs (cancel_insert s) = obs s0 := by
  have htree := destructor_restores_of_inv s0 s k hready hinv
  obtain ⟨hz, hdm, -, -, -, -, -, -⟩ := hinv.hfields
  have hr6 := hready.2.2.2.2.2.1
  rw [cancel_insert]
  dsimp only [obs]
  simp only [Prod.mk.injEq]
  refine ⟨htree, ?_, hz, hdm⟩
  rw [← size_clear_modified, htree]
  exact hr6.symm

/-- C1 counterexample: the claim quantifies over EVERY sequence of
`try_insert` calls, including failing ones.  On a one-node tree, a
`try_insert` at the already-present time throws `rbt insert error` without
having linked anything, yet it has advanced `trial_nodes.index()` to 0; the
subsequent `cancel_insert` then satisfies
`tree.get_size() == trial_nodes.index() + 1` (1 == 1) and wipes the root
pointer: the original node is unlinked and the observable tree is empty,
not bit-identical to the state before the first `try_insert`. -/
theorem c1_counterexample :
    (try_insert 5 op0 s_base).2 = some err_t.rbt_insert_error
    ∧ (cancel_insert (try_insert 5 op0 s_base).1).tree = tree_t.nil
    ∧ ¬ s_base.tree = tree_t.nil := by
  refine ⟨by decide, by decide, by decide⟩

/-- C1 (amended): for every quiescent instance (pool index reset, clean
4-slot pools, no modified flags, `tree_size` consistent with the root
count, distinct node identities) and every sequence of `try_insert` calls
IN WHICH EVERY CALL SUCCEEDS, a single `cancel_insert` restores the
observable state — the tree with all its per-node cache entries,
`tree_size`, the atomic partition function `atomic_z`, and the density
matrix — bit-identically to the state before the first `try_insert`. -/
theorem c1_cancel_insert_restores (L : List (Nat × op_desc)) (s0 : State)
    (hready : insert_ready s0) (hok : (run_inserts L s0).2 = true) :
    obs (cancel_insert (run_inserts L s0).1) = obs s0 :=
  cancel_insert_restores_of_inv s0 (run_inserts L s0).1 (0 + L.length) hready
    (ins_inv_run L s0 hready s0 0 (ins_inv_base s0 hready) hok)

/-- C1 witness: two successful insertions at fresh times 7 and 3 on the
concrete one-node state, then `cancel_insert`. -/
theorem c1_cancel_insert_restores_witness :
    insert_ready s_base
    ∧ (run_inserts [(7, op0), (3, op0)] s_base).2 = true
    ∧ obs (cancel_insert (run_inserts [(7, op0), (3, op0)] s_base).1) = obs s_base :=
  ⟨⟨rfl, rfl, rfl, by decide, rfl, rfl, by decide, by decide⟩, by decide,
    c1_cancel_insert_restores [(7, op0), (3, op0)] s_base
      ⟨rfl, rfl, rfl, by decide, rfl, rfl, by decide, by decide⟩ (by decide)⟩

/-- C9 counterexample: the claim quantifies over every transaction kind,
but the destructor runs exactly `cancel_insert_impl()`, which unwinds only
insertions.  After a pending (unconfirmed, uncancelled) `try_replace` that
actually substituted the root's operator, the live tree consists of the
swapped-in backup-pool node (id 100) while the original node (id 0) sits in
the backup pool; the teardown path leaves that trial node linked. -/
theorem c9_counterexample :
    (try_replace [⟨false, 0, 1⟩] [] s_base).2 = none
    ∧ tree_ids (destructor_body (try_replace [⟨false, 0, 1⟩] [] s_base).1).tree = [100]
    ∧ tree_ids s_base.tree = [0] := by
  refine ⟨by decide, by decide, by decide⟩

/-- C9 (amended, insert kind): for a pending insert transaction — any run
of successful `try_insert` calls on a quiescent instance with neither
`confirm_insert` nor `cancel_insert` called — the teardown path
(`~impurity_trace` runs exactly `cancel_insert_impl()`) fully unwinds the
transaction: up to modified flags the linked tree is the original one, and
in particular no trial node of the insertion pool remains linked into the
live tree structure.  (Delete transactions link no trial node; pending
replace transactions are NOT unwound, see the counterexample.) -/
theorem c9_destructor_unwinds_inserts (L : List (Nat × op_desc)) (s0 : State)
    (hready : insert_ready s0) (hok : (run_inserts L s0).2 = true) :
    clear_modified (destructor_body (run_inserts L s0).1).tree = s0.tree
    ∧ ∀ idv ∈ s0.trial_nodes.map root_id,
        idv ∉ tree_ids (destructor_body (run_inserts L s0).1).tree := by
  have hinv := ins_inv_run L s0 hready s0 0 (ins_inv_base s0 hready) hok
  have htree : clear_modified (destructor_body (run_inserts L s0).1).tree = s0.tree :=
    destructor_restores_of_inv s0 (run_inserts L s0).1 (0 + L.length) hready hinv
  refine ⟨htree, ?_⟩
  intro idv hmem hlink
  have h0 : idv ∈ tree_ids s0.tree := by
    rw [← htree, tree_ids_clear_modified]
    exact hlink
  have h8 := hready.2.2.2.2.2.2.2
  exact (List.nodup_append.mp h8).2.2 h0 hmem

/-- C9 witness: one successful insertion at time 7 on the concrete
one-node state, then teardown. -/
theorem c9_destructor_unwinds_inserts_witness :
    insert_ready s_base
    ∧ (run_inserts [(7, op0)] s_base).2 = true
    ∧ (clear_modified (destructor_body (run_inserts [(7, op0)] s_base).1).tree = s_base.tree
       ∧ ∀ idv ∈ s_base.trial_nodes.map root_id,
           idv ∉ tree_ids (destructor_body (run_inserts [(7, op0)] s_base).1).tree) :=
  ⟨⟨rfl, rfl, rfl, by decide, rfl, rfl, by decide, by decide⟩, by decide,
    c9_destructor_unwinds_inserts [(7, op0)] s_base
      ⟨rfl, rfl, rfl, by decide, rfl, rfl, by decide, by decide⟩ (by decide)⟩

end Cthyb